import Mathlib

/-!
Verification of the command-parsing core of the bskyrc IRC relay bot.

The source is TypeScript (`src/commands.ts`, `src/seen.ts`, `src/bluesky.ts`).
Strings are embedded as `List Char`; each JavaScript regular expression used
by the source is embedded as a deterministic matching function derived from
the ECMAScript backtracking semantics of that concrete pattern.  The async
MIME probe (`fetch` HEAD request) is embedded as an injected oracle.
-/

namespace Bskyrc

/-- Strings are modelled as lists of characters. -/
abbrev Str := List Char

/-- ECMAScript whitespace class `\s` (WhiteSpace plus LineTerminator):
space, tab, LF, VT, FF, CR, NBSP, U+1680, U+2000..200A, U+2028, U+2029,
U+202F, U+205F, U+3000, U+FEFF. -/
def isSpaceJS (c : Char) : Bool :=
  c == ' ' || c == '\t' || c == '\n' || c == Char.ofNat 11 || c == Char.ofNat 12 ||
  c == '\r' || c == Char.ofNat 0xa0 || c == Char.ofNat 0x1680 ||
  (0x2000 ≤ c.toNat && c.toNat ≤ 0x200a) ||
  c == Char.ofNat 0x2028 || c == Char.ofNat 0x2029 || c == Char.ofNat 0x202f ||
  c == Char.ofNat 0x205f || c == Char.ofNat 0x3000 || c == Char.ofNat 0xfeff

/-- ECMAScript non-whitespace class `\S`. -/
def notSpace (c : Char) : Bool := !isSpaceJS c

/-- ECMAScript line terminators (the characters `.` does not match). -/
def isLineTerm (c : Char) : Bool :=
  c == '\n' || c == '\r' || c == Char.ofNat 0x2028 || c == Char.ofNat 0x2029

/-- ECMAScript `.` (without the `s` flag): any character except a line terminator. -/
def dotOk (c : Char) : Bool := !isLineTerm c

/-- Case-insensitive match of one pattern character `p` (the source patterns are
written in lowercase ASCII) against an input character, per the `i` flag's
ASCII canonicalisation. -/
def ciEq (p c : Char) : Bool := p == c || (p.isLower && c == p.toUpper)

/-- Case-insensitive literal prefix test: does the input start with the given
pattern literal? -/
def startsCI : Str → Str → Bool
  | [], _ => true
  | _ :: _, [] => false
  | p :: ps, c :: cs => ciEq p c && startsCI ps cs

/-- Consume a case-insensitive literal at the start of the input, returning the
rest of the input on success. -/
def dropCI : Str → Str → Option Str
  | [], s => some s
  | _ :: _, [] => none
  | p :: ps, c :: cs => if ciEq p c then dropCI ps cs else none

/-- Backtracking step for the regex tail `\s+(.+)$`: the whitespace run has
been measured; try giving it `k` characters (largest first, as the greedy
engine does) and let `(.+)$` take the rest, which must be nonempty and free
of line terminators. -/
def tryDotCapture (r : Str) : Nat → Option Str
  | 0 => none
  | k + 1 =>
    let cand := r.drop (k + 1)
    if !cand.isEmpty && cand.all dotOk then some cand else tryDotCapture r k

/-- Matcher for the regex tail `\s+(.+)$` (as in `/^twit\s+(.+)$/i`):
returns the text captured by `(.+)`. -/
def swCapture (r : Str) : Option Str :=
  let ws := (r.takeWhile isSpaceJS).length
  if ws == 0 then none else tryDotCapture r ws

/-- Matcher for the regex tail `\s+(\S+)$` (as in `/^sup\s+(\S+)$/i`):
one whitespace run, then exactly one non-whitespace token reaching the end. -/
def tokCapture (r : Str) : Option Str :=
  let ws := (r.takeWhile isSpaceJS).length
  if ws == 0 then none else
  let r2 := r.drop ws
  let tok := r2.takeWhile notSpace
  if tok.isEmpty then none
  else if (r2.drop tok.length).isEmpty then some tok else none

/-- Matcher for the regex tail `\s+(\S+)(?:\s+(.+))?$`
(as in `/^quote\s+(\S+)(?:\s+(.+))?$/i`): a nick token, then optionally more
text; per the backtracking semantics the optional group must succeed whenever
input remains after the token. -/
def quoteCapture (r : Str) : Option (Str × Option Str) :=
  let ws := (r.takeWhile isSpaceJS).length
  if ws == 0 then none else
  let r2 := r.drop ws
  let tok := r2.takeWhile notSpace
  if tok.isEmpty then none else
  let r3 := r2.drop tok.length
  if r3.isEmpty then some (tok, none)
  else
    match swCapture r3 with
    | some cap => some (tok, some cap)
    | none => none

/-- First alternative of `(jpg|jpeg|png|gif|webp|bmp)` (in the source's
alternation order) matching case-insensitively at the start of the input;
returns its length. -/
def firstExtLen (s : Str) : Option Nat :=
  if startsCI ("jpg".toList) s then some 3
  else if startsCI ("jpeg".toList) s then some 4
  else if startsCI ("png".toList) s then some 3
  else if startsCI ("gif".toList) s then some 3
  else if startsCI ("webp".toList) s then some 4
  else if startsCI ("bmp".toList) s then some 3
  else none

/-- Backtracking search for `\S+\.(ext)`: the greedy `\S+` is given back one
character at a time, so the chosen dot is the last position `d ≥ 1` in the
tail such that the character there is `.` and an extension alternative
matches right after it.  Returns the dot position and the extension length. -/
def lastDotExtAux (tail : Str) : Nat → Option (Nat × Nat)
  | 0 => none
  | d + 1 =>
    if tail.get? (d + 1) == some '.' then
      match firstExtLen (tail.drop (d + 2)) with
      | some e => some (d + 1, e)
      | none => lastDotExtAux tail d
    else lastDotExtAux tail d

/-- Matcher for the regex tail `\S+\.(jpg|jpeg|png|gif|webp|bmp)(\?\S*)?`
after the scheme: returns the number of characters matched. -/
def extTailLen (tail : Str) : Option Nat :=
  let run := (tail.takeWhile notSpace).length
  match lastDotExtAux tail run with
  | none => none
  | some (d, e) =>
    let p := d + 1 + e
    if tail.get? p == some '?' then
      some (p + 1 + ((tail.drop (p + 1)).takeWhile notSpace).length)
    else some p

/-- Length matched at the start of `s` by the source's image-URL pattern
`/https?:\/\/\S+\.(jpg|jpeg|png|gif|webp|bmp)(\?\S*)?/i`, including the
greedy-then-backtracking choice of `s?` and of `\S+`. -/
def extMatchLen (s : Str) : Option Nat :=
  if startsCI ("http".toList) s then
    let hasS := match s.get? 4 with
      | some c => ciEq 's' c
      | none => false
    let withS :=
      if hasS && startsCI ("://".toList) (s.drop 5) then
        (extTailLen (s.drop 8)).map (fun n => 8 + n)
      else none
    match withS with
    | some n => some n
    | none =>
      if startsCI ("://".toList) (s.drop 4) then
        (extTailLen (s.drop 7)).map (fun n => 7 + n)
      else none
  else none

/-- Length matched at the start of `s` by the source's general URL pattern
`/https?:\/\/\S+/i`. -/
def urlMatchLen (s : Str) : Option Nat :=
  if startsCI ("http".toList) s then
    let hasS := match s.get? 4 with
      | some c => ciEq 's' c
      | none => false
    let withS :=
      if hasS && startsCI ("://".toList) (s.drop 5) then
        let run := ((s.drop 8).takeWhile notSpace).length
        if run ≥ 1 then some (8 + run) else none
      else none
    match withS with
    | some n => some n
    | none =>
      if startsCI ("://".toList) (s.drop 4) then
        let run := ((s.drop 7).takeWhile notSpace).length
        if run ≥ 1 then some (7 + run) else none
      else none
  else none

/-- Global-flag (`g`) scan: repeatedly find the leftmost match of the pattern
(given by its at-position matcher `f`), emit the matched text, and resume right
after it, as `String.prototype.match` with `g` does.  (`f` never returns a
zero length for the patterns embedded here; a zero answer is treated as no
match, advancing one character.)  The structural fuel dominates the remaining
length, so `scanAux` below never exhausts it. -/
def scanFuel (f : Str → Option Nat) : Nat → Str → List Str
  | 0, _ => []
  | _, [] => []
  | fuel + 1, c :: rest =>
    match f (c :: rest) with
    | some (n + 1) => ((c :: rest).take (n + 1)) :: scanFuel f fuel (rest.drop n)
    | _ => scanFuel f fuel rest

/-- The global scan of a whole string. -/
def scanAux (f : Str → Option Nat) (s : Str) : List Str := scanFuel f s.length s

/-- Same scan, also reporting each match's position (offset by `i`). -/
def scanPosFuel (f : Str → Option Nat) : Nat → Str → Nat → List (Nat × Str)
  | 0, _, _ => []
  | _, [], _ => []
  | fuel + 1, c :: rest, i =>
    match f (c :: rest) with
    | some (n + 1) =>
      (i, (c :: rest).take (n + 1)) :: scanPosFuel f fuel (rest.drop n) (i + n + 1)
    | _ => scanPosFuel f fuel rest (i + 1)

/-- The position-reporting global scan of a whole string. -/
def scanPosAux (f : Str → Option Nat) (s : Str) (i : Nat) : List (Nat × Str) :=
  scanPosFuel f s.length s i

/-- All matches of the image-extension URL pattern, in scan order
(`text.match(imageExtPattern) || []`). -/
def matchAllExt (s : Str) : List Str := scanAux extMatchLen s

/-- All matches of the general URL pattern, in scan order
(`text.match(urlPattern) || []`). -/
def matchAllUrl (s : Str) : List Str := scanAux urlMatchLen s

/-- JavaScript `String.prototype.trim`: strip leading and trailing whitespace
(the same character set as `\s`). -/
def trimJS (s : Str) : Str :=
  ((s.dropWhile isSpaceJS).reverse.dropWhile isSpaceJS).reverse

/-- JavaScript `text.replace(u, "")` for a plain (non-regex, nonempty) search
string `u`: remove the first occurrence of `u`, if any. -/
def removeFirst (u : Str) : Str → Str
  | [] => []
  | c :: rest =>
    if !u.isEmpty && u.isPrefixOf (c :: rest) then (c :: rest).drop u.length
    else c :: removeFirst u rest

/-- Outcome of the injected HEAD-request capability for one URL: the fetch can
throw, or return a response whose `content-type` header may be absent. -/
inductive ProbeOutcome where
  | failure : ProbeOutcome
  | success : Option Str → ProbeOutcome
deriving DecidableEq

/-- `isImageUrl` (src/commands.ts): probe the URL with a HEAD request and test
whether the returned content type starts with `image/`; any thrown error and
any missing content type yield `false`. -/
def isImageUrl (fetchHead : Str → ProbeOutcome) (url : Str) : Bool :=
  match fetchHead url with
  | ProbeOutcome.failure => false
  | ProbeOutcome.success none => false
  | ProbeOutcome.success (some ct) => ("image/".toList).isPrefixOf ct

/-- Result of `extractImageUrls`: residual text plus the optional list of
image URLs (`undefined` when empty). -/
structure ExtractResult where
  cleanText : Str
  imageUrls : Option (List Str)
deriving DecidableEq

/-- `extractImageUrls` (src/commands.ts, two-tier variant): extension-matched
URLs, then MIME-probed URLs among the remaining general URL matches; all of
them are removed from the text (first occurrence each, in list order) and the
result is trimmed. -/
def extractImageUrls (fetchHead : Str → ProbeOutcome) (text : Str) : ExtractResult :=
  let urlsWithExtensions := matchAllExt text
  let allUrls := matchAllUrl text
  let urlsToCheck := allUrls.filter (fun url => !(urlsWithExtensions.any (fun img => img == url)))
  let urlsWithMimeImages := urlsToCheck.filter (fun url => isImageUrl fetchHead url)
  let allImageUrls := urlsWithExtensions ++ urlsWithMimeImages
  let cleanText := trimJS (allImageUrls.foldl (fun t u => removeFirst u t) text)
  ⟨cleanText, if allImageUrls.length > 0 then some allImageUrls else none⟩

/-- `TwitCommand` (src/commands.ts). -/
structure TwitCommand where
  text : Str
  imageUrls : Option (List Str)
deriving DecidableEq

/-- `QuoteCommand` (src/commands.ts). -/
structure QuoteCommand where
  targetNick : Str
  additionalText : Option Str
  imageUrls : Option (List Str)
deriving DecidableEq

/-- `ReplyCommand` (src/commands.ts). -/
structure ReplyCommand where
  text : Str
  imageUrls : Option (List Str)
deriving DecidableEq

/-- `UntwitCommand` (src/commands.ts). -/
structure UntwitCommand where
  force : Bool
deriving DecidableEq

/-- `SupCommand` (src/commands.ts). -/
structure SupCommand where
  handle : Str
deriving DecidableEq

/-- `SeenCommand` (final commands module; see `parseSeenCommand`). -/
structure SeenCommand where
  targetNick : Str
deriving DecidableEq

/-- `parseTwitCommand` (src/commands.ts): `/^twit\s+(.+)$/i`, then image
extraction on the captured text. -/
def parseTwitCommand (fetchHead : Str → ProbeOutcome) (message : Str) : Option TwitCommand :=
  match dropCI ("twit".toList) message with
  | none => none
  | some r =>
    match swCapture r with
    | none => none
    | some fullText =>
      let e := extractImageUrls fetchHead fullText
      some ⟨e.cleanText, e.imageUrls⟩

/-- `parseQuoteCommand` (src/commands.ts): `/^quote\s+(\S+)(?:\s+(.+))?$/i`;
the additional text, when captured, is trimmed, run through image extraction,
and an empty residual becomes `undefined`. -/
def parseQuoteCommand (fetchHead : Str → ProbeOutcome) (message : Str) : Option QuoteCommand :=
  match dropCI ("quote".toList) message with
  | none => none
  | some r =>
    match quoteCapture r with
    | none => none
    | some (targetNick, none) => some ⟨targetNick, none, none⟩
    | some (targetNick, some additionalText) =>
      let e := extractImageUrls fetchHead (trimJS additionalText)
      some ⟨targetNick, if e.cleanText.isEmpty then none else some e.cleanText, e.imageUrls⟩

/-- `parseReplyCommand` (src/commands.ts): `/^reply\s+(.+)$/i`, then image
extraction on the captured text. -/
def parseReplyCommand (fetchHead : Str → ProbeOutcome) (message : Str) : Option ReplyCommand :=
  match dropCI ("reply".toList) message with
  | none => none
  | some r =>
    match swCapture r with
    | none => none
    | some fullText =>
      let e := extractImageUrls fetchHead fullText
      some ⟨e.cleanText, e.imageUrls⟩

/-- Case-insensitive whole-string match against a lowercase ASCII literal
(`/^lit$/i`). -/
def eqCI : Str → Str → Bool
  | [], [] => true
  | [], _ :: _ => false
  | _ :: _, [] => false
  | p :: ps, c :: cs => ciEq p c && eqCI ps cs

/-- `parseUntwitCommand` (src/commands.ts): `/^untwit!$/i` gives force, plain
`/^untwit$/i` does not, anything else is no match. -/
def parseUntwitCommand (message : Str) : Option UntwitCommand :=
  if eqCI ("untwit!".toList) message then some ⟨true⟩
  else if eqCI ("untwit".toList) message then some ⟨false⟩
  else none

/-- `parseSupCommand` (src/commands.ts): `/^sup\s+(\S+)$/i`. -/
def parseSupCommand (message : Str) : Option SupCommand :=
  match dropCI ("sup".toList) message with
  | none => none
  | some r => (tokCapture r).map (fun handle => ⟨handle⟩)

/-- Modelled from the spec: `parseSeenCommand` of the final commands module is
absent from the provided sources (only its tests and callers are).  Per the
spec, `seen <nick>` takes exactly one non-whitespace token after the keyword
(extra trailing words do not match), the same surface shape as `sup`. -/
def parseSeenCommand (message : Str) : Option SeenCommand :=
  match dropCI ("seen".toList) message with
  | none => none
  | some r => (tokCapture r).map (fun targetNick => ⟨targetNick⟩)

/-- The `Command` tagged union (src/commands.ts plus the spec's `Seen` tag);
`parseCommand` returns `none` for the union's `null` member. -/
inductive Command where
  | twit : TwitCommand → Command
  | quote : QuoteCommand → Command
  | reply : ReplyCommand → Command
  | untwit : UntwitCommand → Command
  | sup : SupCommand → Command
  | seen : SeenCommand → Command
deriving DecidableEq

/-- `parseCommand`: try each rule in the source's order — twit, quote, reply,
untwit, sup, and (modelled from the spec, see `parseSeenCommand`) seen —
returning the first match. -/
def parseCommand (fetchHead : Str → ProbeOutcome) (message : Str) : Option Command :=
  match parseTwitCommand fetchHead message with
  | some c => some (Command.twit c)
  | none =>
    match parseQuoteCommand fetchHead message with
    | some c => some (Command.quote c)
    | none =>
      match parseReplyCommand fetchHead message with
      | some c => some (Command.reply c)
      | none =>
        match parseUntwitCommand message with
        | some c => some (Command.untwit c)
        | none =>
          match parseSupCommand message with
          | some c => some (Command.sup c)
          | none =>
            match parseSeenCommand message with
            | some c => some (Command.seen c)
            | none => none

/-- Character class `[^/\s]` of the tracked-post pattern's profile segment. -/
def identRunOk (c : Char) : Bool := !isSpaceJS c && c != '/'

/-- Character class `[a-z0-9]` under the `i` flag: ASCII alphanumeric. -/
def isAlnumAscii (c : Char) : Bool :=
  ('a' ≤ c && c ≤ 'z') || ('A' ≤ c && c ≤ 'Z') || ('0' ≤ c && c ≤ '9')

/-- Matcher for the tracked-post pattern tail after `https?://bsky.app/profile/`:
`[^/\s]+\/post\/[a-z0-9]+` (the profile run must be followed literally by
`/post/`, then at least one alphanumeric). -/
def bskyTailLen (r : Str) : Option Nat :=
  let ident := r.takeWhile identRunOk
  if ident.isEmpty then none else
  let r2 := r.drop ident.length
  if startsCI ("/post/".toList) r2 then
    let idrun := (r2.drop 6).takeWhile isAlnumAscii
    if idrun.isEmpty then none else some (ident.length + 6 + idrun.length)
  else none

/-- Length matched at the start of `s` by the source's tracked-post pattern
`/https?:\/\/bsky\.app\/profile\/[^/\s]+\/post\/[a-z0-9]+/i`. -/
def bskyMatchLen (s : Str) : Option Nat :=
  if startsCI ("http".toList) s then
    let hasS := match s.get? 4 with
      | some c => ciEq 's' c
      | none => false
    let withS :=
      if hasS && startsCI ("://bsky.app/profile/".toList) (s.drop 5) then
        (bskyTailLen (s.drop 25)).map (fun n => 25 + n)
      else none
    match withS with
    | some n => some n
    | none =>
      if startsCI ("://bsky.app/profile/".toList) (s.drop 4) then
        (bskyTailLen (s.drop 24)).map (fun n => 24 + n)
      else none
  else none

/-- `extractBlueskyUrl` (src/commands.ts): the first (leftmost) match of the
tracked-post pattern, or `null`. -/
def extractBlueskyUrl : Str → Option Str
  | [] => none
  | c :: rest =>
    match bskyMatchLen (c :: rest) with
    | some n => some ((c :: rest).take n)
    | none => extractBlueskyUrl rest

/-- One row of the `seen` table (src/seen.ts): `who` is the primary key. -/
structure SeenRow where
  who : Str
  what : Str
  where_channel : Str
  when_timestamp : Nat
deriving DecidableEq

/-- The `seen` table, modelled as a list of rows. -/
abbrev SeenDb := List SeenRow

/-- JavaScript `toLowerCase`, modelled per character. -/
def lowerStr (s : Str) : Str := s.map Char.toLower

/-- `updateSeen` (src/seen.ts): upsert keyed on the lower-cased nick
(`INSERT ... ON CONFLICT(who) DO UPDATE SET ...`); the timestamp is the
caller-observed clock value. -/
def updateSeen (db : SeenDb) (nick message channel : Str) (timestamp : Nat) : SeenDb :=
  let key := lowerStr nick
  if db.any (fun r => r.who == key) then
    db.map (fun r => if r.who = key then ⟨r.who, message, channel, timestamp⟩ else r)
  else db ++ [⟨key, message, channel, timestamp⟩]

/-- `SeenRecord` (src/seen.ts), as returned by `getSeen`; the source's `where`
and `when` fields are named `where_loc` and `when_ts` here (Lean keywords). -/
structure SeenRecord where
  who : Str
  what : Str
  where_loc : Str
  when_ts : Nat
deriving DecidableEq

/-- `getSeen` (src/seen.ts): select the row whose `who` equals the lower-cased
nick. -/
def getSeen (db : SeenDb) (nick : Str) : Option SeenRecord :=
  (db.find? (fun r => r.who == lowerStr nick)).map
    (fun r => ⟨r.who, r.what, r.where_channel, r.when_timestamp⟩)

/-- One inbound message as recorded by the dispatch layer's `updateSeen` call. -/
structure SeenOp where
  nick : Str
  message : Str
  channel : Str
  ts : Nat
deriving DecidableEq

/-- Apply a sequence of `updateSeen` calls to an initially empty table. -/
def runUpdates (ops : List SeenOp) : SeenDb :=
  ops.foldl (fun db op => updateSeen db op.nick op.message op.channel op.ts) []

/-- `normalizeHandle` (src/bluesky.ts): append `.bsky.social` when the handle
contains no period. -/
def normalizeHandle (handle : Str) : Str :=
  if handle.contains '.' then handle else handle ++ (".bsky.social".toList)

/-- `BLUESKY_APP_URL` (src/constants.ts): the service's canonical app host. -/
def BLUESKY_APP_URL : Str := "https://bsky.app".toList

/-- Embed variants distinguished by `formatPostMessage` via `$type`. -/
inductive PostEmbed where
  | recordView : PostEmbed
  | imagesView : Nat → PostEmbed
  | externalView : Option Str → PostEmbed
  | otherEmbed : PostEmbed
deriving DecidableEq

/-- The fields of a feed post that `getLastPost` reads. -/
structure BskyPost where
  record_text : Option Str
  embed : Option PostEmbed
  author_handle : Str
  uri : Str
deriving DecidableEq

/-- `formatPostMessage` (src/bluesky.ts): post text plus an embed marker. -/
def formatPostMessage (post : BskyPost) : Str :=
  let text := post.record_text.getD []
  let sep : Str := if text.isEmpty then [] else [' ']
  let text :=
    match post.embed with
    | none => text
    | some PostEmbed.recordView => text ++ sep ++ ("[+quote]".toList)
    | some (PostEmbed.imagesView n) =>
      if n == 1 then text ++ sep ++ ("[image]".toList)
      else text ++ sep ++ ("[+".toList) ++ (Nat.repr n).toList ++ (" images]".toList)
    | some (PostEmbed.externalView none) => text
    | some (PostEmbed.externalView (some linkUrl)) => text ++ sep ++ linkUrl
    | some PostEmbed.otherEmbed => text
  ("bsky/@".toList) ++ post.author_handle ++ (": ".toList) ++ text

/-- `uri.split("/").pop()`: the segment after the last slash. -/
def lastSegment (s : Str) : Str := (s.splitOn '/').getLastD []

/-- `LastPostResult` (src/bluesky.ts). -/
structure LastPostResult where
  success : Bool
  message : Option Str
  url : Option Str
deriving DecidableEq

/-- Outcome of the injected `getAuthorFeed` call for one actor: the two
recognised error shapes, or a feed page whose items may lack a post. -/
inductive FeedOutcome where
  | errorUnknownHandle : FeedOutcome
  | errorOther : FeedOutcome
  | feed : List (Option BskyPost) → FeedOutcome
deriving DecidableEq

/-- `getLastPost` (src/bluesky.ts): normalize the handle, fetch one feed item
for it, and format the result; "Profile not found"-style errors become
`who?`, an empty feed becomes `crickets`, other errors a plain failure. -/
def getLastPost (agent : Str → FeedOutcome) (handle : Str) : LastPostResult :=
  match agent (normalizeHandle handle) with
  | FeedOutcome.errorUnknownHandle => ⟨true, some ("who?".toList), none⟩
  | FeedOutcome.errorOther => ⟨false, none, none⟩
  | FeedOutcome.feed [] => ⟨true, some ("crickets".toList), none⟩
  | FeedOutcome.feed (none :: _) => ⟨false, none, none⟩
  | FeedOutcome.feed (some post :: _) =>
    ⟨true, some (formatPostMessage post),
      some (BLUESKY_APP_URL ++ ("/profile/".toList) ++ post.author_handle ++
        ("/post/".toList) ++ lastSegment post.uri)⟩

/-- Claim-side notion: one character of a case variant — the character equals
the (lowercase ASCII) pattern character or its upper-case form. -/
def caseVariantChar (p c : Char) : Prop := c = p ∨ c = p.toUpper

/-- Claim-side notion: `msg` is a character-wise ASCII case variant of the
lowercase pattern literal `pat`. -/
def CaseVariantOf (pat msg : Str) : Prop := List.Forall₂ caseVariantChar pat msg

/-- Probe oracle that always fails (every HEAD request throws). -/
def probeNone : Str → ProbeOutcome := fun _ => ProbeOutcome.failure

/-- Probe oracle fixture: the listed URLs respond with an image content type,
every other URL's probe throws (as the tests' fetch mocks do). -/
def probeImageOf (urls : List Str) : Str → ProbeOutcome := fun u =>
  if u ∈ urls then ProbeOutcome.success (some ("image/png".toList))
  else ProbeOutcome.failure

/-- Claim-side notion: the string `u` occurs in `s` at position `i`. -/
def occursAt (u s : Str) (i : Nat) : Prop := (s.drop i).take u.length = u

instance occursAtDecidable (u s : Str) (i : Nat) : Decidable (occursAt u s i) := by
  unfold occursAt
  infer_instance

/-- Claim-side notion: the position of the first occurrence of `u` in `s`
(`none` when `u` does not occur). -/
def firstOccIdx (u : Str) (s : Str) : Option Nat :=
  (List.range (s.length + 1)).find? (fun i => decide (occursAt u s i))

/-- The image-extension matches of a text together with their positions. -/
def matchAllExtPos (s : Str) : List (Nat × Str) := scanPosAux extMatchLen s 0

/-- The general URL matches of a text together with their positions. -/
def matchAllUrlPos (s : Str) : List (Nat × Str) := scanPosAux urlMatchLen s 0

/-- The probe-classified image URLs of a text together with their positions:
the URL matches that are not string-equal to an extension match and whose
probe reports an image. -/
def probePosList (f : Str → ProbeOutcome) (text : Str) : List (Nat × Str) :=
  (matchAllUrlPos text).filter
    (fun p => isImageUrl f p.2 && !((matchAllExt text).any (fun v => v == p.2)))

/-- Claim-side notion: the canonical tracked-post shape
`scheme://host/profile/{identifier}/post/{id}` — a case variant of
`http(s)://bsky.app/profile/`, a nonempty identifier over the service's
`[^/\s]` rule, a case variant of `/post/`, and a nonempty id over `idOk`
(a parameter, so the claim's id rule and the code's id rule can be compared). -/
def ClaimTrackedShape (idOk : Char → Bool) (u : Str) : Prop :=
  ∃ pre ident mid pid : Str,
    (CaseVariantOf ("http://bsky.app/profile/".toList) pre ∨
     CaseVariantOf ("https://bsky.app/profile/".toList) pre) ∧
    ident ≠ [] ∧ ident.all identRunOk = true ∧
    CaseVariantOf ("/post/".toList) mid ∧
    pid ≠ [] ∧ pid.all idOk = true ∧
    u = pre ++ (ident ++ (mid ++ pid))

/-- `isImageByExtension` (named in the spec; in the source it is the direct
application of the image-extension pattern): does the pattern match anywhere
in the URL? -/
def isImageByExtension (url : Str) : Bool := !(matchAllExt url).isEmpty

/-- Disjunction of the six extension alternatives matching (case-insensitively)
at the start of `b`. -/
def ExtAlternativeAt (b : Str) : Prop :=
  startsCI ("jpg".toList) b = true ∨ startsCI ("jpeg".toList) b = true ∨
  startsCI ("png".toList) b = true ∨ startsCI ("gif".toList) b = true ∨
  startsCI ("webp".toList) b = true ∨ startsCI ("bmp".toList) b = true

/-- Claim-side notion (the claim's wording): the string contains a dot
followed by one of the extensions, case-insensitively; the optional query
string imposes no constraint on what follows. -/
def ContainsDotExt (s : Str) : Prop :=
  ∃ a b, s = a ++ ('.' :: b) ∧ ExtAlternativeAt b

/-- Claim-side notion (amended): the string contains, after an `http://` or
`https://` scheme occurrence and at least one further character, a dot
followed by one of the extensions, with everything from the scheme through
the dot free of whitespace. -/
def AmendedExtShape (s : Str) : Prop :=
  ∃ a sch mid b : Str,
    (CaseVariantOf ("http://".toList) sch ∨ CaseVariantOf ("https://".toList) sch) ∧
    mid ≠ [] ∧ mid.all notSpace = true ∧
    s = a ++ (sch ++ (mid ++ ('.' :: b))) ∧ ExtAlternativeAt b

/-- Claim-side notion: the most recent update whose case-normalized nick is
`key`. -/
def lastOpFor (ops : List SeenOp) (key : Str) : Option SeenOp :=
  ops.reverse.find? (fun op => lowerStr op.nick == key)

end Bskyrc

namespace Bskyrc

/-! ### Helper lemmas -/

theorem toUpper_of_not_lower (p : Char) (hp : p.isLower = false) : p.toUpper = p := by
  unfold Char.toUpper
  simp only [Char.isLower, Bool.and_eq_false_iff, decide_eq_false_iff_not] at hp
  have hcond : ¬(p.toNat ≥ 97 ∧ p.toNat ≤ 122) := by
    rintro ⟨h1, h2⟩
    rcases hp with h | h
    · exact h (by
        rw [ge_iff_le, UInt32.le_def, BitVec.le_def]
        simpa [Char.toNat] using h1)
    · exact h (by
        rw [UInt32.le_def, BitVec.le_def]
        simpa [Char.toNat] using h2)
  simp [hcond]

theorem ciEq_iff (p c : Char) : ciEq p c = true ↔ caseVariantChar p c := by
  cases h1 : p.isLower
  · rw [caseVariantChar, toUpper_of_not_lower p h1]
    simp only [ciEq, h1, Bool.false_and, Bool.or_false, beq_iff_eq, or_self]
    exact ⟨fun h => h.symm, fun h => h.symm⟩
  · simp only [ciEq, h1, Bool.or_eq_true, Bool.and_eq_true, beq_iff_eq, true_and,
      caseVariantChar]
    constructor
    · rintro (h | h)
      · exact Or.inl h.symm
      · exact Or.inr h
    · rintro (h | h)
      · exact Or.inl h.symm
      · exact Or.inr h

theorem eqCI_iff_forall (pat msg : Str) :
    eqCI pat msg = true ↔ List.Forall₂ (fun p c => ciEq p c = true) pat msg := by
  induction pat generalizing msg with
  | nil => cases msg <;> simp [eqCI]
  | cons p ps ih =>
    cases msg with
    | nil => simp [eqCI]
    | cons c cs => simp [eqCI, Bool.and_eq_true, ih, List.forall₂_cons]

theorem eqCI_iff_caseVariant (pat msg : Str) :
    eqCI pat msg = true ↔ CaseVariantOf pat msg := by
  rw [eqCI_iff_forall, CaseVariantOf]
  constructor
  · exact fun h => h.imp (fun _ _ hpc => (ciEq_iff _ _).mp hpc)
  · exact fun h => h.imp (fun _ _ hpc => (ciEq_iff _ _).mpr hpc)

theorem caseVariant_length {pat msg : Str} (h : CaseVariantOf pat msg) :
    pat.length = msg.length := List.Forall₂.length_eq h

instance caseVariantDecidable (pat msg : Str) : Decidable (CaseVariantOf pat msg) :=
  decidable_of_iff (eqCI pat msg = true) (eqCI_iff_caseVariant pat msg)

theorem parseUntwit_eq (msg : Str) :
    parseUntwitCommand msg =
      (if eqCI ("untwit!".toList) msg = true then some ⟨true⟩
       else if eqCI ("untwit".toList) msg = true then some ⟨false⟩ else none) := rfl

/-! ### C5 : the untwit rule -/

/-- C5: `parseUntwitCommand` maps exactly the case variants of `untwit!` to
`Untwit{force:true}`, exactly the case variants of `untwit` to
`Untwit{force:false}`, and any other input (in particular any trailing
characters) to no command. -/
theorem untwit_exact (msg : Str) :
    (parseUntwitCommand msg = some ⟨true⟩ ↔ CaseVariantOf ("untwit!".toList) msg) ∧
    (parseUntwitCommand msg = some ⟨false⟩ ↔ CaseVariantOf ("untwit".toList) msg) ∧
    (parseUntwitCommand msg = none ↔
      ¬CaseVariantOf ("untwit!".toList) msg ∧ ¬CaseVariantOf ("untwit".toList) msg) := by
  by_cases h1 : eqCI ("untwit!".toList) msg = true
  · have hv := (eqCI_iff_caseVariant _ msg).mp h1
    have hv2 : ¬CaseVariantOf ("untwit".toList) msg := by
      intro hc
      have l1 := caseVariant_length hv
      have l2 := caseVariant_length hc
      simp at l1 l2
      omega
    have hval : parseUntwitCommand msg = some ⟨true⟩ := by
      rw [parseUntwit_eq, if_pos h1]
    rw [hval]
    refine ⟨iff_of_true rfl hv, iff_of_false (by simp) hv2,
      iff_of_false (by simp) (fun h => h.1 hv)⟩
  · by_cases h2 : eqCI ("untwit".toList) msg = true
    · have hv := (eqCI_iff_caseVariant _ msg).mp h2
      have hv1 : ¬CaseVariantOf ("untwit!".toList) msg := fun hc =>
        h1 ((eqCI_iff_caseVariant _ msg).mpr hc)
      have hval : parseUntwitCommand msg = some ⟨false⟩ := by
        rw [parseUntwit_eq, if_neg h1, if_pos h2]
      rw [hval]
      refine ⟨iff_of_false (by simp) hv1, iff_of_true rfl hv,
        iff_of_false (by simp) (fun h => h.2 hv)⟩
    · have hv1 : ¬CaseVariantOf ("untwit!".toList) msg := fun hc =>
        h1 ((eqCI_iff_caseVariant _ msg).mpr hc)
      have hv2 : ¬CaseVariantOf ("untwit".toList) msg := fun hc =>
        h2 ((eqCI_iff_caseVariant _ msg).mpr hc)
      have hval : parseUntwitCommand msg = none := by
        rw [parseUntwit_eq, if_neg h1, if_neg h2]
      rw [hval]
      refine ⟨iff_of_false (by simp) hv1, iff_of_false (by simp) hv2,
        iff_of_true rfl ⟨hv1, hv2⟩⟩

/-- Witness for C5 at concrete inputs. -/
theorem untwit_exact_witness :
    parseUntwitCommand ("UNTWIT!".toList) = some ⟨true⟩ ∧
    parseUntwitCommand ("untwit".toList) = some ⟨false⟩ ∧
    parseUntwitCommand ("untwit something".toList) = none :=
  ⟨((untwit_exact ("UNTWIT!".toList)).1).mpr (by decide),
    ((untwit_exact ("untwit".toList)).2.1).mpr (by decide),
    ((untwit_exact ("untwit something".toList)).2.2).mpr (by decide)⟩

/-! ### C10 : handle normalization in getLastPost -/

/-- C10: `normalizeHandle` appends `.bsky.social` exactly when the handle has
no period, leaves it unchanged otherwise, and `getLastPost` consults the
injected feed agent only at the normalized handle. -/
theorem getLastPost_normalizes :
    (∀ h : Str, h.contains '.' = false → normalizeHandle h = h ++ (".bsky.social".toList)) ∧
    (∀ h : Str, h.contains '.' = true → normalizeHandle h = h) ∧
    (∀ (a₁ a₂ : Str → FeedOutcome) (h : Str),
      a₁ (normalizeHandle h) = a₂ (normalizeHandle h) → getLastPost a₁ h = getLastPost a₂ h) := by
  refine ⟨?_, ?_, ?_⟩
  · intro h hc
    simp at hc
    simp [normalizeHandle, hc]
  · intro h hc
    simp at hc
    simp [normalizeHandle, hc]
  · intro a₁ a₂ h heq
    unfold getLastPost
    rw [heq]

/-- Witness for C10: `sup dril` resolves dril.bsky.social; `npr.org` is used
as given; two agents that only agree at the normalized handle give the same
result. -/
theorem getLastPost_normalizes_witness :
    normalizeHandle ("dril".toList) = ("dril.bsky.social".toList) ∧
    normalizeHandle ("npr.org".toList) = ("npr.org".toList) ∧
    parseSupCommand ("sup dril".toList) = some ⟨("dril".toList)⟩ ∧
    getLastPost (fun _ => FeedOutcome.feed []) ("dril".toList) =
      getLastPost
        (fun s => if s = ("dril.bsky.social".toList) then FeedOutcome.feed []
          else FeedOutcome.errorOther) ("dril".toList) :=
  ⟨(getLastPost_normalizes.1 ("dril".toList) (by decide)).trans (by decide),
    getLastPost_normalizes.2.1 ("npr.org".toList) (by decide),
    by decide,
    getLastPost_normalizes.2.2 _ _ ("dril".toList) (by decide)⟩

/-! ### C1 : rule priority in parseCommand -/

/-- C1: `parseCommand` tries the rules in the fixed order twit, quote, reply,
untwit, sup, seen; the first structurally matching rule's command is returned
(later rules are not attempted), and if no rule matches there is no command,
so exactly one command tag (or none) is produced per line. -/
theorem parseCommand_priority (f : Str → ProbeOutcome) (msg : Str) :
    (∀ c, parseTwitCommand f msg = some c → parseCommand f msg = some (Command.twit c)) ∧
    (parseTwitCommand f msg = none → ∀ c, parseQuoteCommand f msg = some c →
      parseCommand f msg = some (Command.quote c)) ∧
    (parseTwitCommand f msg = none → parseQuoteCommand f msg = none →
      ∀ c, parseReplyCommand f msg = some c → parseCommand f msg = some (Command.reply c)) ∧
    (parseTwitCommand f msg = none → parseQuoteCommand f msg = none →
      parseReplyCommand f msg = none → ∀ c, parseUntwitCommand msg = some c →
      parseCommand f msg = some (Command.untwit c)) ∧
    (parseTwitCommand f msg = none → parseQuoteCommand f msg = none →
      parseReplyCommand f msg = none → parseUntwitCommand msg = none →
      ∀ c, parseSupCommand msg = some c → parseCommand f msg = some (Command.sup c)) ∧
    (parseTwitCommand f msg = none → parseQuoteCommand f msg = none →
      parseReplyCommand f msg = none → parseUntwitCommand msg = none →
      parseSupCommand msg = none → ∀ c, parseSeenCommand msg = some c →
      parseCommand f msg = some (Command.seen c)) ∧
    (parseTwitCommand f msg = none → parseQuoteCommand f msg = none →
      parseReplyCommand f msg = none → parseUntwitCommand msg = none →
      parseSupCommand msg = none → parseSeenCommand msg = none →
      parseCommand f msg = none) := by
  unfold parseCommand
  refine ⟨?_, ?_, ?_, ?_, ?_, ?_, ?_⟩
  · intro c hc
    simp [hc]
  · intro h1 c hc
    simp [h1, hc]
  · intro h1 h2 c hc
    simp [h1, h2, hc]
  · intro h1 h2 h3 c hc
    simp [h1, h2, h3, hc]
  · intro h1 h2 h3 h4 c hc
    simp [h1, h2, h3, h4, hc]
  · intro h1 h2 h3 h4 h5 c hc
    simp [h1, h2, h3, h4, h5, hc]
  · intro h1 h2 h3 h4 h5 h6
    simp [h1, h2, h3, h4, h5, h6]

/-- Witness for C1: on `untwit`, the three earlier rules fail, the untwit rule
matches, and `parseCommand` returns its command. -/
theorem parseCommand_priority_witness :
    parseTwitCommand probeNone ("untwit".toList) = none ∧
    parseQuoteCommand probeNone ("untwit".toList) = none ∧
    parseReplyCommand probeNone ("untwit".toList) = none ∧
    parseCommand probeNone ("untwit".toList) = some (Command.untwit ⟨false⟩) :=
  ⟨by decide, by decide, by decide,
    (parseCommand_priority probeNone ("untwit".toList)).2.2.2.1
      (by decide) (by decide) (by decide) ⟨false⟩ (by decide)⟩

/-! ### C7 : probe failures are soft -/

theorem extractImageUrls_congr (f g : Str → ProbeOutcome)
    (hfg : ∀ u, isImageUrl f u = isImageUrl g u) (t : Str) :
    extractImageUrls f t = extractImageUrls g t := by
  have hfun : (fun url => isImageUrl f url) = (fun url => isImageUrl g url) := funext hfg
  unfold extractImageUrls
  rw [hfun]

theorem parseTwitCommand_congr (f g : Str → ProbeOutcome)
    (hfg : ∀ u, isImageUrl f u = isImageUrl g u) (msg : Str) :
    parseTwitCommand f msg = parseTwitCommand g msg := by
  have hfun : extractImageUrls f = extractImageUrls g :=
    funext (extractImageUrls_congr f g hfg)
  unfold parseTwitCommand
  rw [hfun]

theorem parseQuoteCommand_congr (f g : Str → ProbeOutcome)
    (hfg : ∀ u, isImageUrl f u = isImageUrl g u) (msg : Str) :
    parseQuoteCommand f msg = parseQuoteCommand g msg := by
  have hfun : extractImageUrls f = extractImageUrls g :=
    funext (extractImageUrls_congr f g hfg)
  unfold parseQuoteCommand
  rw [hfun]

theorem parseReplyCommand_congr (f g : Str → ProbeOutcome)
    (hfg : ∀ u, isImageUrl f u = isImageUrl g u) (msg : Str) :
    parseReplyCommand f msg = parseReplyCommand g msg := by
  have hfun : extractImageUrls f = extractImageUrls g :=
    funext (extractImageUrls_congr f g hfg)
  unfold parseReplyCommand
  rw [hfun]

theorem parseCommand_congr (f g : Str → ProbeOutcome)
    (hfg : ∀ u, isImageUrl f u = isImageUrl g u) (msg : Str) :
    parseCommand f msg = parseCommand g msg := by
  unfold parseCommand
  rw [parseTwitCommand_congr f g hfg, parseQuoteCommand_congr f g hfg,
    parseReplyCommand_congr f g hfg]

/-- C7: a failing probe classifies the URL as not-an-image; when every probe
fails, the recognizer behaves exactly as with a benign non-image response —
no probe failure is surfaced — and its result is always an ordinary value:
some command or no command. -/
theorem probe_failure_soft (f : Str → ProbeOutcome) (msg url : Str) :
    (f url = ProbeOutcome.failure → isImageUrl f url = false) ∧
    ((∀ u, f u = ProbeOutcome.failure) →
      parseCommand f msg = parseCommand (fun _ => ProbeOutcome.success none) msg) ∧
    (parseCommand f msg = none ∨ ∃ c, parseCommand f msg = some c) := by
  refine ⟨?_, ?_, ?_⟩
  · intro hf
    unfold isImageUrl
    rw [hf]
  · intro hall
    refine parseCommand_congr f _ (fun u => ?_) msg
    unfold isImageUrl
    rw [hall u]
  · cases h : parseCommand f msg with
    | none => exact Or.inl rfl
    | some c => exact Or.inr ⟨c, rfl⟩

/-- Witness for C7: with an all-failing probe, a twit line containing an
extension-less URL keeps that URL in its text, exactly as with a non-image
response. -/
theorem probe_failure_soft_witness :
    isImageUrl probeNone ("https://example.com/page".toList) = false ∧
    parseCommand probeNone ("twit check this https://example.com/page".toList) =
      parseCommand (fun _ => ProbeOutcome.success none)
        ("twit check this https://example.com/page".toList) :=
  ⟨(probe_failure_soft probeNone [] ("https://example.com/page".toList)).1 rfl,
    (probe_failure_soft probeNone
      ("twit check this https://example.com/page".toList) []).2.1 (fun _ => rfl)⟩

/-! ### C9 : the seen store -/

theorem find?_map_upd (db : SeenDb) (key k2 m c : Str) (t : Nat) :
    (db.map (fun r => if r.who = key then (⟨r.who, m, c, t⟩ : SeenRow) else r)).find?
      (fun r => r.who == k2) =
      (db.find? (fun r => r.who == k2)).map
        (fun r => if r.who = key then (⟨r.who, m, c, t⟩ : SeenRow) else r) := by
  induction db with
  | nil => rfl
  | cons r rest ih =>
    have hwhoEq : (if r.who = key then (⟨r.who, m, c, t⟩ : SeenRow) else r).who = r.who := by
      by_cases hk : r.who = key <;> simp [hk]
    simp only [List.map_cons, List.find?_cons, hwhoEq]
    cases h : (r.who == k2) with
    | true => simp [h]
    | false => simp [h, ih]

theorem getSeen_updateSeen (db : SeenDb) (nick message channel : Str) (ts : Nat) (v : Str) :
    getSeen (updateSeen db nick message channel ts) v =
      if lowerStr v = lowerStr nick then some ⟨lowerStr nick, message, channel, ts⟩
      else getSeen db v := by
  by_cases hany : db.any (fun r => r.who == lowerStr nick) = true
  · have hup : updateSeen db nick message channel ts =
        db.map (fun r => if r.who = lowerStr nick then
          (⟨r.who, message, channel, ts⟩ : SeenRow) else r) := by
      unfold updateSeen
      rw [if_pos hany]
    rw [hup]
    unfold getSeen
    rw [find?_map_upd]
    by_cases hv : lowerStr v = lowerStr nick
    · rw [if_pos hv, hv]
      have hsome : (db.find? (fun r => r.who == lowerStr nick)).isSome := by
        rw [List.find?_isSome]
        simpa [List.any_eq_true] using hany
      rcases Option.isSome_iff_exists.mp hsome with ⟨r0, hr0⟩
      have hwho : r0.who = lowerStr nick := by
        have := List.find?_some hr0
        simpa using this
      rw [hr0]
      simp [hwho]
    · rw [if_neg hv]
      cases hfind : db.find? (fun r => r.who == lowerStr v) with
      | none => rfl
      | some r0 =>
        have hwho : r0.who = lowerStr v := by
          have := List.find?_some hfind
          simpa using this
        have : ¬r0.who = lowerStr nick := by
          rw [hwho]
          exact hv
        simp [this]
  · have hup : updateSeen db nick message channel ts =
        db ++ [⟨lowerStr nick, message, channel, ts⟩] := by
      unfold updateSeen
      rw [if_neg hany]
    rw [hup]
    unfold getSeen
    rw [List.find?_append]
    by_cases hv : lowerStr v = lowerStr nick
    · have hnone : db.find? (fun r => r.who == lowerStr v) = none := by
        rw [List.find?_eq_none]
        intro r hr
        simp only [beq_iff_eq, hv]
        intro hcontra
        have : db.any (fun r => r.who == lowerStr nick) = true := by
          rw [List.any_eq_true]
          exact ⟨r, hr, by simp [hcontra]⟩
        exact hany this
      rw [hnone, if_pos hv]
      simp [List.find?_cons, hv]
    · rw [if_neg hv]
      cases hfind : db.find? (fun r => r.who == lowerStr v) with
      | none =>
        have : (lowerStr nick == lowerStr v) = false := by
          simp
          exact fun h => hv h.symm
        simp [List.find?_cons, this]
      | some r0 => rfl

theorem getSeen_runUpdates_from (ops : List SeenOp) (db : SeenDb) (v : Str) :
    getSeen (ops.foldl
        (fun db op => updateSeen db op.nick op.message op.channel op.ts) db) v =
      match (ops.reverse.find? (fun op => lowerStr op.nick == lowerStr v)) with
      | some op => some ⟨lowerStr op.nick, op.message, op.channel, op.ts⟩
      | none => getSeen db v := by
  induction ops generalizing db with
  | nil => rfl
  | cons op rest ih =>
    simp only [List.foldl_cons, List.reverse_cons]
    rw [ih, List.find?_append]
    cases hrest : rest.reverse.find? (fun op => lowerStr op.nick == lowerStr v) with
    | some o => rfl
    | none =>
      simp only [Option.none_or]
      rw [getSeen_updateSeen]
      by_cases hv : lowerStr v = lowerStr op.nick
      · rw [if_pos hv]
        have : (lowerStr op.nick == lowerStr v) = true := by
          simp [hv]
        simp [List.find?_cons, this, hv]
      · rw [if_neg hv]
        have : (lowerStr op.nick == lowerStr v) = false := by
          simp
          exact fun h => hv h.symm
        simp [List.find?_cons, this]

theorem countP_updateSeen (db : SeenDb) (nick message channel : Str) (ts : Nat)
    (key : Str) (hdb : (db.countP (fun r => r.who == key)) ≤ 1) :
    ((updateSeen db nick message channel ts).countP (fun r => r.who == key)) ≤ 1 := by
  unfold updateSeen
  by_cases hany : db.any (fun r => r.who == lowerStr nick) = true
  · rw [if_pos hany]
    rw [List.countP_map]
    calc db.countP ((fun r => r.who == key) ∘ fun r =>
          if r.who = lowerStr nick then ⟨r.who, message, channel, ts⟩ else r)
        = db.countP (fun r => r.who == key) := by
          apply List.countP_congr
          intro r _
          by_cases hk : r.who = lowerStr nick <;> simp [hk]
      _ ≤ 1 := hdb
  · rw [if_neg hany]
    rw [List.countP_append]
    by_cases hkey : (lowerStr nick == key) = true
    · have hzero : db.countP (fun r => r.who == key) = 0 := by
        rw [List.countP_eq_zero]
        intro r hr
        simp only [beq_iff_eq] at hkey ⊢
        intro hcontra
        apply hany
        rw [List.any_eq_true]
        exact ⟨r, hr, by simp [hcontra, hkey]⟩
      rw [hzero]
      simp [List.countP_cons, hkey]
    · simp only [List.countP_cons, List.countP_nil, hkey]
      simpa using hdb

/-- C9: the seen store keeps at most one row per case-normalized nick, and
after any sequence of updates `getSeen` at any case variant of a nick returns
the most recently stored record for that nick — whose `who` is the lower-cased
nick — or none when the nick was never recorded. -/
theorem seen_store_spec (ops : List SeenOp) (nick v : Str)
    (hv : lowerStr v = lowerStr nick) :
    (getSeen (runUpdates ops) v =
      (lastOpFor ops (lowerStr nick)).map
        (fun op => ⟨lowerStr op.nick, op.message, op.channel, op.ts⟩)) ∧
    (∀ op ∈ lastOpFor ops (lowerStr nick), lowerStr op.nick = lowerStr nick) ∧
    (∀ key, ((runUpdates ops).countP (fun r => r.who == key)) ≤ 1) := by
  refine ⟨?_, ?_, ?_⟩
  · unfold runUpdates
    rw [getSeen_runUpdates_from ops [] v]
    unfold lastOpFor
    rw [hv]
    cases hfind : List.find? (fun op => lowerStr op.nick == lowerStr nick) ops.reverse with
    | none => rfl
    | some op => rfl
  · intro op hop
    unfold lastOpFor at hop
    simp only [Option.mem_def] at hop
    have := List.find?_some hop
    simpa using this
  · intro key
    unfold runUpdates
    induction ops using List.list_reverse_induction with
    | base => simp [List.countP_nil]
    | ind rest op ih =>
      rw [List.foldl_append]
      exact countP_updateSeen _ op.nick op.message op.channel op.ts key ih

/-! ### C2 : order of the extracted image URLs -/

theorem scanPosFuel_map_snd (f : Str → Option Nat) (fuel : Nat) :
    ∀ (s : Str) (i : Nat), (scanPosFuel f fuel s i).map Prod.snd = scanFuel f fuel s := by
  induction fuel with
  | zero => intro s i; simp [scanPosFuel, scanFuel]
  | succ fuel ih =>
    intro s i
    cases s with
    | nil => rfl
    | cons c rest =>
      cases hfs : f (c :: rest) with
      | none =>
        simp only [scanPosFuel, scanFuel, hfs]
        exact ih rest (i + 1)
      | some n =>
        cases n with
        | zero =>
          simp only [scanPosFuel, scanFuel, hfs]
          exact ih rest (i + 1)
        | succ n =>
          simp only [scanPosFuel, scanFuel, hfs, List.map_cons]
          rw [ih]

theorem scanPosFuel_lb (f : Str → Option Nat) (fuel : Nat) :
    ∀ (s : Str) (i : Nat) (p : Nat × Str), p ∈ scanPosFuel f fuel s i → i ≤ p.1 := by
  induction fuel with
  | zero => intro s i p hp; simp [scanPosFuel] at hp
  | succ fuel ih =>
    intro s i p hp
    cases s with
    | nil => simp [scanPosFuel] at hp
    | cons c rest =>
      cases hfs : f (c :: rest) with
      | none =>
        simp only [scanPosFuel, hfs] at hp
        have := ih rest (i + 1) p hp
        omega
      | some n =>
        cases n with
        | zero =>
          simp only [scanPosFuel, hfs] at hp
          have := ih rest (i + 1) p hp
          omega
        | succ n =>
          simp only [scanPosFuel, hfs, List.mem_cons] at hp
          rcases hp with hp | hp
          · rw [hp]
          · have := ih (rest.drop n) (i + n + 1) p hp
            omega

theorem scanPosFuel_pairwise (f : Str → Option Nat) (fuel : Nat) :
    ∀ (s : Str) (i : Nat),
      List.Pairwise (fun a b => a.1 < b.1) (scanPosFuel f fuel s i) := by
  induction fuel with
  | zero => intro s i; simp [scanPosFuel]
  | succ fuel ih =>
    intro s i
    cases s with
    | nil => simp [scanPosFuel]
    | cons c rest =>
      cases hfs : f (c :: rest) with
      | none =>
        simp only [scanPosFuel, hfs]
        exact ih rest (i + 1)
      | some n =>
        cases n with
        | zero =>
          simp only [scanPosFuel, hfs]
          exact ih rest (i + 1)
        | succ n =>
          simp only [scanPosFuel, hfs]
          refine List.Pairwise.cons ?_ (ih (rest.drop n) (i + n + 1))
          intro b hb
          have := scanPosFuel_lb f fuel (rest.drop n) (i + n + 1) b hb
          simp only
          omega

theorem scanPosFuel_occ (f : Str → Option Nat) (fuel : Nat) :
    ∀ (s t : Str) (i : Nat), t.drop i = s →
      ∀ p ∈ scanPosFuel f fuel s i, occursAt p.2 t p.1 := by
  induction fuel with
  | zero => intro s t i ht p hp; simp [scanPosFuel] at hp
  | succ fuel ih =>
    intro s t i ht p hp
    cases s with
    | nil => simp [scanPosFuel] at hp
    | cons c rest =>
      cases hfs : f (c :: rest) with
      | none =>
        simp only [scanPosFuel, hfs] at hp
        refine ih rest t (i + 1) ?_ p hp
        have h2 : (t.drop i).drop 1 = rest := by simp [ht]
        rw [List.drop_drop] at h2
        simpa [Nat.add_comm] using h2
      | some n =>
        cases n with
        | zero =>
          simp only [scanPosFuel, hfs] at hp
          refine ih rest t (i + 1) ?_ p hp
          have h2 : (t.drop i).drop 1 = rest := by simp [ht]
          rw [List.drop_drop] at h2
          simpa [Nat.add_comm] using h2
        | succ n =>
          simp only [scanPosFuel, hfs, List.mem_cons] at hp
          rcases hp with hp | hp
          · rw [hp]
            unfold occursAt
            rw [ht]
            rw [List.length_take]
            rw [List.take_eq_take]
            simp only [List.length_cons]
            omega
          · refine ih (rest.drop n) t (i + n + 1) ?_ p hp
            have h2 : (t.drop i).drop (n + 1) = rest.drop n := by simp [ht]
            rw [List.drop_drop] at h2
            simpa [Nat.add_comm, Nat.add_assoc, Nat.add_left_comm] using h2

theorem filter_snd_map (q : Str → Bool) (l : List (Nat × Str)) :
    (l.filter (fun p => q p.2)).map Prod.snd = (l.map Prod.snd).filter q := by
  induction l with
  | nil => rfl
  | cons a l ih =>
    by_cases h : q a.2 = true <;> simp [List.filter_cons, h, ih]

theorem matchAllExtPos_map_snd (text : Str) :
    (matchAllExtPos text).map Prod.snd = matchAllExt text :=
  scanPosFuel_map_snd extMatchLen text.length text 0

theorem matchAllUrlPos_map_snd (text : Str) :
    (matchAllUrlPos text).map Prod.snd = matchAllUrl text :=
  scanPosFuel_map_snd urlMatchLen text.length text 0

/-- C2 counterexample: with a probe that classifies `https://cdn/a` (first in
the text, at position 0) as an image, the extractor returns the
extension-matched `https://b.jpg` (which first occurs later, at position 14)
ahead of it — the output is not in order of first appearance. -/
theorem extract_order_cex :
    (extractImageUrls (probeImageOf [("https://cdn/a".toList)])
        ("https://cdn/a https://b.jpg".toList)).imageUrls =
      some [("https://b.jpg".toList), ("https://cdn/a".toList)] ∧
    firstOccIdx ("https://cdn/a".toList) ("https://cdn/a https://b.jpg".toList) = some 0 ∧
    firstOccIdx ("https://b.jpg".toList) ("https://cdn/a https://b.jpg".toList) = some 14 :=
  ⟨by decide, by decide, by decide⟩

/-- C2 amended: the returned sequence is all extension-matched URLs in text
order followed by all probe-classified URLs in text order (each sublist is at
strictly increasing positions of occurrence in the text), not one interleaved
first-appearance order. -/
theorem extract_order_amended (f : Str → ProbeOutcome) (text : Str) :
    (extractImageUrls f text).imageUrls =
      (if 0 < (matchAllExtPos text).length + (probePosList f text).length
       then some ((matchAllExtPos text).map Prod.snd ++ (probePosList f text).map Prod.snd)
       else none) ∧
    List.Pairwise (fun a b => a.1 < b.1) (matchAllExtPos text) ∧
    List.Pairwise (fun a b => a.1 < b.1) (probePosList f text) ∧
    (∀ p ∈ matchAllExtPos text, occursAt p.2 text p.1) ∧
    (∀ p ∈ probePosList f text, occursAt p.2 text p.1) := by
  have hext := matchAllExtPos_map_snd text
  have hurl := matchAllUrlPos_map_snd text
  have hpps : (probePosList f text).map Prod.snd =
      ((matchAllUrl text).filter
        (fun u => !((matchAllExt text).any (fun v => v == u)))).filter
          (fun u => isImageUrl f u) := by
    unfold probePosList
    rw [filter_snd_map
      (fun u => isImageUrl f u && !((matchAllExt text).any (fun v => v == u)))
      (matchAllUrlPos text)]
    rw [hurl, List.filter_filter]
  refine ⟨?_, ?_, ?_, ?_, ?_⟩
  · unfold extractImageUrls
    simp only [hext, hpps]
    have hlen1 : (matchAllExtPos text).length = (matchAllExt text).length := by
      rw [← hext, List.length_map]
    have hlen2 : (probePosList f text).length =
        (((matchAllUrl text).filter
          (fun u => !((matchAllExt text).any (fun v => v == u)))).filter
            (fun u => isImageUrl f u)).length := by
      rw [← hpps, List.length_map]
    rw [hlen1, hlen2, ← List.length_append]
  · exact scanPosFuel_pairwise extMatchLen text.length text 0
  · exact List.Pairwise.sublist (List.filter_sublist _) (scanPosFuel_pairwise urlMatchLen text.length text 0)
  · exact fun p hp => scanPosFuel_occ extMatchLen text.length text text 0 rfl p hp
  · intro p hp
    have hsub : p ∈ matchAllUrlPos text := List.mem_of_mem_filter hp
    exact scanPosFuel_occ urlMatchLen text.length text text 0 rfl p hsub

/-! ### C4 : the tracked-post URL recognizer -/

theorem startsCI_caseVariant {pat s : Str} (h : startsCI pat s = true) :
    CaseVariantOf pat (s.take pat.length) ∧ pat.length ≤ s.length := by
  induction pat generalizing s with
  | nil =>
    constructor
    · exact List.Forall₂.nil
    · simp
  | cons p ps ih =>
    cases s with
    | nil => simp [startsCI] at h
    | cons c cs =>
      simp only [startsCI, Bool.and_eq_true] at h
      obtain ⟨hv, hl⟩ := ih h.2
      constructor
      · simpa [List.take_succ_cons, CaseVariantOf] using
          List.Forall₂.cons ((ciEq_iff _ _).mp h.1) hv
      · simpa using hl

theorem startsCI_of_caseVariant {pat t : Str} (h : CaseVariantOf pat t) (s2 : Str) :
    startsCI pat (t ++ s2) = true := by
  induction h with
  | nil => rfl
  | cons hc _ ih => simp [startsCI, ih, (ciEq_iff _ _).mpr hc]

theorem caseVariant_append_split {a b t : Str} (h : CaseVariantOf (a ++ b) t) :
    ∃ t1 t2, t = t1 ++ t2 ∧ CaseVariantOf a t1 ∧ CaseVariantOf b t2 := by
  induction a generalizing t with
  | nil => exact ⟨[], t, rfl, List.Forall₂.nil, h⟩
  | cons x xs ih =>
    cases h with
    | cons hx htail =>
      obtain ⟨t1, t2, rfl, h1, h2⟩ := ih htail
      exact ⟨_ :: t1, t2, rfl, List.Forall₂.cons hx h1, h2⟩

theorem caseVariantChar_fixed {p c : Char} (hp : p.isLower = false)
    (h : caseVariantChar p c) : c = p := by
  rcases h with h | h
  · exact h
  · rw [toUpper_of_not_lower p hp] at h
    exact h

theorem takeWhile_append_eq {p : Char → Bool} {good rest : Str}
    (hg : ∀ c ∈ good, p c = true) (hr : ∀ c, rest.head? = some c → p c = false) :
    (good ++ rest).takeWhile p = good := by
  induction good with
  | nil =>
    cases rest with
    | nil => rfl
    | cons r t => simp [List.takeWhile_cons, hr r rfl]
  | cons g t ih =>
    simp only [List.cons_append, List.takeWhile_cons, hg g (by simp)]
    simp [ih (fun c hc => hg c (by simp [hc]))]

theorem takeWhile_all {p : Char → Bool} (l : Str) : (l.takeWhile p).all p = true := by
  rw [List.all_eq_true]
  exact fun c hc => List.mem_takeWhile_imp hc

theorem takeWhile_eq_take {p : Char → Bool} (l : Str) :
    l.take ((l.takeWhile p).length) = l.takeWhile p :=
  (List.prefix_iff_eq_take.mp (List.takeWhile_prefix p)).symm

theorem extractBlueskyUrl_none_iff (msg : Str) :
    extractBlueskyUrl msg = none ↔ ∀ i, bskyMatchLen (msg.drop i) = none := by
  induction msg with
  | nil =>
    simp only [extractBlueskyUrl, List.drop_nil, true_iff]
    intro i
    rfl
  | cons c rest ih =>
    unfold extractBlueskyUrl
    cases hm : bskyMatchLen (c :: rest) with
    | some n =>
      simp only [false_iff, reduceCtorEq]
      intro hall
      have := hall 0
      simp only [List.drop_zero] at this
      rw [hm] at this
      exact Option.noConfusion this
    | none =>
      rw [ih]
      constructor
      · intro hall i
        cases i with
        | zero => simpa using hm
        | succ i => simpa using hall i
      · intro hall i
        have := hall (i + 1)
        simpa using this

theorem extractBlueskyUrl_some_spec (msg u : Str) (h : extractBlueskyUrl msg = some u) :
    ∃ i n, bskyMatchLen (msg.drop i) = some n ∧ u = (msg.drop i).take n ∧
      ∀ j, j < i → bskyMatchLen (msg.drop j) = none := by
  induction msg with
  | nil => simp [extractBlueskyUrl] at h
  | cons c rest ih =>
    unfold extractBlueskyUrl at h
    cases hm : bskyMatchLen (c :: rest) with
    | some n =>
      rw [hm] at h
      refine ⟨0, n, by simpa using hm, ?_, ?_⟩
      · simpa using (Option.some.injEq _ _ ▸ h).symm
      · intro j hj
        omega
    | none =>
      rw [hm] at h
      obtain ⟨i, n, h1, h2, h3⟩ := ih h
      refine ⟨i + 1, n, by simpa using h1, by simpa using h2, ?_⟩
      intro j hj
      cases j with
      | zero => simpa using hm
      | succ j =>
        have := h3 j (by omega)
        simpa using this

theorem bskyTailLen_shape (r : Str) (m : Nat) (h : bskyTailLen r = some m) :
    ∃ ident mid pid : Str, ident ≠ [] ∧ ident.all identRunOk = true ∧
      CaseVariantOf ("/post/".toList) mid ∧ pid ≠ [] ∧ pid.all isAlnumAscii = true ∧
      r.take m = ident ++ (mid ++ pid) ∧ m ≤ r.length := by
  simp only [bskyTailLen] at h
  by_cases hie : (r.takeWhile identRunOk).isEmpty = true
  · rw [if_pos hie] at h
    exact absurd h (by simp)
  · rw [if_neg hie] at h
    by_cases hpost :
        startsCI ("/post/".toList) (r.drop (r.takeWhile identRunOk).length) = true
    · rw [if_pos hpost] at h
      by_cases hire :
          (((r.drop (r.takeWhile identRunOk).length).drop 6).takeWhile isAlnumAscii).isEmpty = true
      · rw [if_pos hire] at h
        exact absurd h (by simp)
      · rw [if_neg hire] at h
        have hm : m = (r.takeWhile identRunOk).length + 6 +
            (((r.drop (r.takeWhile identRunOk).length).drop 6).takeWhile isAlnumAscii).length := by
          injection h with h2
          omega
        obtain ⟨hcv, hlen6⟩ := startsCI_caseVariant hpost
        have hpl : (("/post/".toList) : Str).length = 6 := rfl
        rw [hpl] at hlen6
        have hd : r.drop ((r.takeWhile identRunOk).length + 6) =
            (r.drop (r.takeWhile identRunOk).length).drop 6 := by
          rw [List.drop_drop, Nat.add_comm]
        refine ⟨r.takeWhile identRunOk,
          (r.drop (r.takeWhile identRunOk).length).take 6,
          ((r.drop (r.takeWhile identRunOk).length).drop 6).takeWhile isAlnumAscii,
          by simpa using hie, takeWhile_all r, by simpa [hpl] using hcv,
          by simpa using hire, takeWhile_all _, ?_, ?_⟩
        · rw [hm]
          rw [List.take_add, List.take_add, List.append_assoc]
          rw [takeWhile_eq_take]
          congr 1
          congr 1
          rw [hd]
          rw [takeWhile_eq_take]
        · have h1 : (r.takeWhile identRunOk).length ≤ r.length :=
            (List.takeWhile_sublist identRunOk).length_le
          have h2 : (((r.drop (r.takeWhile identRunOk).length).drop 6).takeWhile
              isAlnumAscii).length ≤
              ((r.drop (r.takeWhile identRunOk).length).drop 6).length :=
            (List.takeWhile_sublist isAlnumAscii).length_le
          simp only [List.length_drop] at h2 hlen6
          omega
    · rw [if_neg hpost] at h
      exact absurd h (by simp)

theorem bskyTailLen_isSome_of_shape (ident mid pid tail2 : Str)
    (hi : ident ≠ []) (hia : ident.all identRunOk = true)
    (hm : CaseVariantOf ("/post/".toList) mid)
    (hp : pid ≠ []) (hpa : pid.all isAlnumAscii = true) :
    ∃ m, bskyTailLen (ident ++ (mid ++ (pid ++ tail2))) = some m := by
  have hmidlen : mid.length = 6 := (List.Forall₂.length_eq hm).symm
  obtain ⟨m0, mtl, rfl⟩ : ∃ m0 mtl, mid = m0 :: mtl := by
    cases mid with
    | nil => simp at hmidlen
    | cons a b => exact ⟨a, b, rfl⟩
  have hm0 : m0 = '/' := by
    cases hm with
    | cons hc _ => exact caseVariantChar_fixed (by decide) hc
  obtain ⟨p0, ptl, rfl⟩ : ∃ p0 ptl, pid = p0 :: ptl := by
    cases pid with
    | nil => simp at hp
    | cons a b => exact ⟨a, b, rfl⟩
  have hp0 : isAlnumAscii p0 = true := by
    rw [List.all_eq_true] at hpa
    exact hpa p0 (by simp)
  have htw : (ident ++ ((m0 :: mtl) ++ ((p0 :: ptl) ++ tail2))).takeWhile identRunOk
      = ident := by
    apply takeWhile_append_eq
    · exact fun c hc => by
        rw [List.all_eq_true] at hia
        exact hia c hc
    · intro c hc
      simp only [List.cons_append, List.head?_cons, Option.some.injEq] at hc
      rw [← hc, hm0]
      decide
  have hire : (((p0 :: ptl) ++ tail2).takeWhile isAlnumAscii).isEmpty = false := by
    simp only [List.cons_append, List.takeWhile_cons, hp0, if_true]
    rfl
  have hdrop6 : (((m0 :: mtl) ++ ((p0 :: ptl) ++ tail2))).drop 6 = (p0 :: ptl) ++ tail2 := by
    have h6 : (6 : Nat) = (m0 :: mtl).length := by omega
    rw [h6]
    exact List.drop_left _ _
  refine ⟨ident.length + 6 + (((p0 :: ptl) ++ tail2).takeWhile isAlnumAscii).length, ?_⟩
  simp only [bskyTailLen, htw]
  rw [if_neg (by simpa using hi)]
  rw [List.drop_left]
  rw [if_pos (startsCI_of_caseVariant hm ((p0 :: ptl) ++ tail2))]
  rw [hdrop6]
  rw [if_neg (by rw [hire]; simp)]

theorem bskyMatchLen_shape_noS (s : Str) (n : Nat)
    (hhttp : startsCI ("http".toList) s = true)
    (h : (if startsCI ("://bsky.app/profile/".toList) (s.drop 4) = true
      then (bskyTailLen (s.drop 24)).map (fun m => 24 + m) else none) = some n) :
    ClaimTrackedShape isAlnumAscii (s.take n) ∧ n ≤ s.length := by
  by_cases hlit : startsCI ("://bsky.app/profile/".toList) (s.drop 4) = true
  swap
  · rw [if_neg hlit] at h
    exact absurd h (by simp)
  rw [if_pos hlit] at h
  cases hbt : bskyTailLen (s.drop 24) with
  | none =>
    rw [hbt] at h
    exact absurd h (by simp)
  | some m =>
    rw [hbt] at h
    simp only [Option.map_some', Option.some.injEq] at h
    obtain ⟨ident, mid, pid, hi, hia, hmv, hp, hpa, htake, hmle⟩ := bskyTailLen_shape _ m hbt
    obtain ⟨hcv4, hle4⟩ := startsCI_caseVariant hhttp
    obtain ⟨hcv20, hle20⟩ := startsCI_caseVariant hlit
    have hplen : (("http".toList) : Str).length = 4 := rfl
    have hllen : (("://bsky.app/profile/".toList) : Str).length = 20 := rfl
    rw [hplen] at hcv4 hle4
    rw [hllen] at hcv20 hle20
    constructor
    · refine ⟨s.take 4 ++ (s.drop 4).take 20, ident, mid, pid, Or.inl ?_, hi, hia, hmv,
        hp, hpa, ?_⟩
      · have hsplit : (("http://bsky.app/profile/".toList) : Str) =
            ("http".toList) ++ ("://bsky.app/profile/".toList) := rfl
        rw [hsplit]
        exact List.rel_append hcv4 hcv20
      · rw [← h]
        have h24 : (24 : Nat) = 4 + 20 := by norm_num
        rw [List.take_add]
        rw [htake]
        have ht24 : s.take 24 = s.take 4 ++ (s.drop 4).take 20 := by
          rw [h24, List.take_add]
        rw [ht24, List.append_assoc]
    · simp only [List.length_drop] at hle20 hmle
      omega

theorem bskyMatchLen_shape (s : Str) (n : Nat) (h : bskyMatchLen s = some n) :
    ClaimTrackedShape isAlnumAscii (s.take n) ∧ n ≤ s.length := by
  simp only [bskyMatchLen] at h
  by_cases hhttp : startsCI ("http".toList) s = true
  swap
  · rw [if_neg hhttp] at h
    exact absurd h (by simp)
  rw [if_pos hhttp] at h
  by_cases hws : ((match s.get? 4 with
      | some c => ciEq 's' c
      | none => false) &&
      startsCI ("://bsky.app/profile/".toList) (s.drop 5)) = true
  · rw [if_pos hws] at h
    cases hbt : bskyTailLen (s.drop 25) with
    | none =>
      rw [hbt] at h
      simp only [Option.map_none'] at h
      exact bskyMatchLen_shape_noS s n hhttp h
    | some m =>
      rw [hbt] at h
      simp only [Option.map_some', Option.some.injEq] at h
      obtain ⟨hS, hlit⟩ := Bool.and_eq_true_iff.mp hws
      obtain ⟨c4, hget4, hci4⟩ : ∃ c4, s.get? 4 = some c4 ∧ ciEq 's' c4 = true := by
        cases hg : s.get? 4 with
        | none => rw [hg] at hS; exact absurd hS (by simp)
        | some c => rw [hg] at hS; exact ⟨c, rfl, hS⟩
      obtain ⟨ident, mid, pid, hi, hia, hmv, hp, hpa, htake, hmle⟩ :=
        bskyTailLen_shape _ m hbt
      obtain ⟨hcv4, hle4⟩ := startsCI_caseVariant hhttp
      obtain ⟨hcv20, hle20⟩ := startsCI_caseVariant hlit
      have hplen : (("http".toList) : Str).length = 4 := rfl
      have hllen : (("://bsky.app/profile/".toList) : Str).length = 20 := rfl
      rw [hplen] at hcv4 hle4
      rw [hllen] at hcv20 hle20
      have h4lt : 4 < s.length := by
        have := List.get?_eq_some.mp hget4
        obtain ⟨hlt, _⟩ := this
        exact hlt
      have hdrop4 : s.drop 4 = c4 :: s.drop 5 := by
        have hg := List.get?_eq_some.mp hget4
        obtain ⟨hlt, hval⟩ := hg
        rw [List.drop_eq_get_cons hlt]
        rw [hval]
      have hext1 : (s.drop 4).take 1 = [c4] := by
        rw [hdrop4]
        rfl
      constructor
      · refine ⟨s.take 4 ++ ((s.drop 4).take 1 ++ (s.drop 5).take 20), ident, mid, pid,
          Or.inr ?_, hi, hia, hmv, hp, hpa, ?_⟩
        · have hsplit : (("https://bsky.app/profile/".toList) : Str) =
              ("http".toList) ++ (['s'] ++ ("://bsky.app/profile/".toList)) := rfl
          rw [hsplit]
          refine List.rel_append hcv4 ?_
          rw [hext1]
          exact List.rel_append (List.Forall₂.cons ((ciEq_iff _ _).mp hci4) List.Forall₂.nil)
            hcv20
        · rw [← h]
          have h25 : (25 : Nat) = 4 + (1 + 20) := by norm_num
          rw [List.take_add, htake]
          have ht25 : s.take 25 = s.take 4 ++ ((s.drop 4).take 1 ++ (s.drop 5).take 20) := by
            rw [h25, List.take_add, List.take_add]
            have hd5 : (s.drop 4).drop 1 = s.drop 5 := by
              rw [List.drop_drop]
            rw [hd5]
          rw [ht25, List.append_assoc]
      · simp only [List.length_drop] at hle20 hmle
        omega
  · rw [if_neg hws] at h
    exact bskyMatchLen_shape_noS s n hhttp h

theorem bskyMatchLen_eq_noS (s : Str)
    (hhttp : startsCI ("http".toList) s = true)
    (hS : (match s.get? 4 with
      | some c => ciEq 's' c
      | none => false) = false) :
    bskyMatchLen s =
      (if startsCI ("://bsky.app/profile/".toList) (s.drop 4) = true
       then (bskyTailLen (s.drop 24)).map (fun m => 24 + m) else none) := by
  simp only [bskyMatchLen]
  rw [if_pos hhttp, hS]
  simp

theorem bskyMatchLen_eq_withS (s : Str) (m : Nat)
    (hhttp : startsCI ("http".toList) s = true)
    (hS : (match s.get? 4 with
      | some c => ciEq 's' c
      | none => false) = true)
    (hlit : startsCI ("://bsky.app/profile/".toList) (s.drop 5) = true)
    (hbt : bskyTailLen (s.drop 25) = some m) :
    bskyMatchLen s = some (25 + m) := by
  simp only [bskyMatchLen]
  rw [if_pos hhttp, hS]
  rw [if_pos (by rw [hlit]; rfl)]
  rw [hbt]
  rfl

theorem bskyMatchLen_isSome_of_shape (u tail2 : Str)
    (h : ClaimTrackedShape isAlnumAscii u) :
    ∃ n, bskyMatchLen (u ++ tail2) = some n := by
  obtain ⟨pre, ident, mid, pid, hpre, hi, hia, hmv, hp, hpa, rfl⟩ := h
  obtain ⟨m, hbt⟩ := bskyTailLen_isSome_of_shape ident mid pid tail2 hi hia hmv hp hpa
  rcases hpre with hpre | hpre
  · -- http:// variant, 24-character prefix
    have hsplit : (("http://bsky.app/profile/".toList) : Str) =
        ("http".toList) ++ ("://bsky.app/profile/".toList) := rfl
    rw [hsplit] at hpre
    obtain ⟨t4, t20, rfl, h4, h20⟩ := caseVariant_append_split hpre
    have ht4 : t4.length = 4 := (List.Forall₂.length_eq h4).symm
    have ht20 : t20.length = 20 := (List.Forall₂.length_eq h20).symm
    obtain ⟨c0, t20tl, rfl⟩ : ∃ c0 t20tl, t20 = c0 :: t20tl := by
      cases t20 with
      | nil => simp at ht20
      | cons a b => exact ⟨a, b, rfl⟩
    have hc0 : c0 = ':' := by
      cases h20 with
      | cons hc _ => exact caseVariantChar_fixed (by decide) hc
    have hR : ((t4 ++ (c0 :: t20tl)) ++ (ident ++ (mid ++ pid))) ++ tail2 =
        t4 ++ ((c0 :: t20tl) ++ (ident ++ (mid ++ (pid ++ tail2)))) := by
      simp [List.append_assoc]
    rw [hR]
    have hstart : startsCI ("http".toList)
        (t4 ++ ((c0 :: t20tl) ++ (ident ++ (mid ++ (pid ++ tail2))))) = true :=
      startsCI_of_caseVariant h4 _
    have hget4 : (t4 ++ ((c0 :: t20tl) ++ (ident ++ (mid ++ (pid ++ tail2))))).get? 4 =
        some c0 := by
      rw [List.get?_append_right (by omega)]
      simp [ht4]
    have hS : (match (t4 ++ ((c0 :: t20tl) ++ (ident ++ (mid ++ (pid ++ tail2))))).get? 4 with
        | some c => ciEq 's' c
        | none => false) = false := by
      simp only [hget4]
      rw [hc0]
      decide
    have hdrop4 : (t4 ++ ((c0 :: t20tl) ++ (ident ++ (mid ++ (pid ++ tail2))))).drop 4 =
        (c0 :: t20tl) ++ (ident ++ (mid ++ (pid ++ tail2))) := by
      conv_lhs => rw [show (4 : Nat) = t4.length from ht4.symm]
      exact List.drop_left _ _
    have hdrop24 : (t4 ++ ((c0 :: t20tl) ++ (ident ++ (mid ++ (pid ++ tail2))))).drop 24 =
        ident ++ (mid ++ (pid ++ tail2)) := by
      have hassoc : t4 ++ ((c0 :: t20tl) ++ (ident ++ (mid ++ (pid ++ tail2)))) =
          (t4 ++ (c0 :: t20tl)) ++ (ident ++ (mid ++ (pid ++ tail2))) := by
        simp [List.append_assoc]
      rw [hassoc]
      have hlen : (t4 ++ (c0 :: t20tl)).length = 24 := by
        simp only [List.length_append, ht4]
        have := ht20
        simp only [List.length_cons] at this ⊢
        omega
      conv_lhs => rw [show (24 : Nat) = (t4 ++ (c0 :: t20tl)).length from hlen.symm]
      exact List.drop_left _ _
    refine ⟨24 + m, ?_⟩
    rw [bskyMatchLen_eq_noS _ hstart hS]
    rw [if_pos (by rw [hdrop4]; exact startsCI_of_caseVariant h20 _)]
    rw [hdrop24, hbt]
    rfl
  · -- https:// variant, 25-character prefix
    have hsplit : (("https://bsky.app/profile/".toList) : Str) =
        ("http".toList) ++ (['s'] ++ ("://bsky.app/profile/".toList)) := rfl
    rw [hsplit] at hpre
    obtain ⟨t4, trest, rfl, h4, hrest⟩ := caseVariant_append_split hpre
    obtain ⟨tS, t20, rfl, hSv, h20⟩ := caseVariant_append_split hrest
    have ht4 : t4.length = 4 := (List.Forall₂.length_eq h4).symm
    have ht20 : t20.length = 20 := (List.Forall₂.length_eq h20).symm
    obtain ⟨cS, rfl⟩ : ∃ cS, tS = [cS] := by
      cases hSv with
      | cons hc htl =>
        cases htl with
        | nil => exact ⟨_, rfl⟩
    have hcS : caseVariantChar 's' cS := by
      cases hSv with
      | cons hc _ => exact hc
    have hR : ((t4 ++ ([cS] ++ t20)) ++ (ident ++ (mid ++ pid))) ++ tail2 =
        t4 ++ ([cS] ++ (t20 ++ (ident ++ (mid ++ (pid ++ tail2))))) := by
      simp [List.append_assoc]
    rw [hR]
    have hstart : startsCI ("http".toList)
        (t4 ++ ([cS] ++ (t20 ++ (ident ++ (mid ++ (pid ++ tail2)))))) = true :=
      startsCI_of_caseVariant h4 _
    have hget4 : (t4 ++ ([cS] ++ (t20 ++ (ident ++ (mid ++ (pid ++ tail2)))))).get? 4 =
        some cS := by
      rw [List.get?_append_right (by omega)]
      simp [ht4]
    have hS : (match (t4 ++ ([cS] ++ (t20 ++ (ident ++ (mid ++ (pid ++ tail2)))))).get? 4 with
        | some c => ciEq 's' c
        | none => false) = true := by
      simp only [hget4]
      exact (ciEq_iff _ _).mpr hcS
    have hdrop5 : (t4 ++ ([cS] ++ (t20 ++ (ident ++ (mid ++ (pid ++ tail2)))))).drop 5 =
        t20 ++ (ident ++ (mid ++ (pid ++ tail2))) := by
      have hassoc : t4 ++ ([cS] ++ (t20 ++ (ident ++ (mid ++ (pid ++ tail2))))) =
          (t4 ++ [cS]) ++ (t20 ++ (ident ++ (mid ++ (pid ++ tail2)))) := by
        simp [List.append_assoc]
      rw [hassoc]
      have hlen : (t4 ++ [cS]).length = 5 := by
        simp [ht4]
      conv_lhs => rw [show (5 : Nat) = (t4 ++ [cS]).length from hlen.symm]
      exact List.drop_left _ _
    have hdrop25 : (t4 ++ ([cS] ++ (t20 ++ (ident ++ (mid ++ (pid ++ tail2)))))).drop 25 =
        ident ++ (mid ++ (pid ++ tail2)) := by
      have hassoc : t4 ++ ([cS] ++ (t20 ++ (ident ++ (mid ++ (pid ++ tail2))))) =
          ((t4 ++ [cS]) ++ t20) ++ (ident ++ (mid ++ (pid ++ tail2))) := by
        simp [List.append_assoc]
      rw [hassoc]
      have hlen : ((t4 ++ [cS]) ++ t20).length = 25 := by
        simp [ht4, ht20]
      conv_lhs => rw [show (25 : Nat) = ((t4 ++ [cS]) ++ t20).length from hlen.symm]
      exact List.drop_left _ _
    refine ⟨25 + m, ?_⟩
    refine bskyMatchLen_eq_withS _ m hstart hS ?_ ?_
    · rw [hdrop5]
      exact startsCI_of_caseVariant h20 _
    · rw [hdrop25]
      exact hbt

theorem bskyMatchLen_isSome_of_occurs (msg v : Str) (j : Nat) (hocc : occursAt v msg j)
    (hshape : ClaimTrackedShape isAlnumAscii v) : bskyMatchLen (msg.drop j) ≠ none := by
  unfold occursAt at hocc
  have hdd : (msg.drop j).drop v.length = msg.drop (j + v.length) := by
    rw [List.drop_drop, Nat.add_comm]
  have hdec : msg.drop j = v ++ msg.drop (j + v.length) := by
    conv_lhs => rw [← List.take_append_drop v.length (msg.drop j)]
    rw [hocc, hdd]
  rw [hdec]
  obtain ⟨n, hn⟩ := bskyMatchLen_isSome_of_shape v (msg.drop (j + v.length)) hshape
  simp [hn]

/-- C4 counterexample: the id `_` is slash/whitespace-free, so the claim's
canonical shape matches the whole of `https://bsky.app/profile/x/post/_`
(a substring at position 0), but the code's pattern requires an alphanumeric
id and `extractBlueskyUrl` returns none. -/
theorem extractBlueskyUrl_cex :
    extractBlueskyUrl ("https://bsky.app/profile/x/post/_".toList) = none ∧
    occursAt ("https://bsky.app/profile/x/post/_".toList)
      ("https://bsky.app/profile/x/post/_".toList) 0 ∧
    ClaimTrackedShape identRunOk ("https://bsky.app/profile/x/post/_".toList) := by
  refine ⟨by decide, by decide, ?_⟩
  exact ⟨("https://bsky.app/profile/".toList), ['x'], ("/post/".toList), ['_'],
    Or.inr (by decide), by decide, by decide, by decide, by decide, by decide, by decide⟩

/-- C4 amended: `extractBlueskyUrl` returns the leftmost substring matching
the canonical post-URL shape with case-insensitive http/https scheme and
host, a slash/whitespace-free identifier, and an *alphanumeric* id segment
(`[a-z0-9]` under the `i` flag, stricter than slash/whitespace-free); it
returns none exactly when no such substring exists, and substrings at
earlier positions never have the shape. -/
theorem extractBlueskyUrl_first_match (msg : Str) :
    (∀ u, extractBlueskyUrl msg = some u →
      ∃ i, occursAt u msg i ∧ ClaimTrackedShape isAlnumAscii u ∧
        ∀ j, j < i → ∀ v, occursAt v msg j → ¬ClaimTrackedShape isAlnumAscii v) ∧
    (extractBlueskyUrl msg = none →
      ∀ j v, occursAt v msg j → ¬ClaimTrackedShape isAlnumAscii v) := by
  constructor
  · intro u hu
    obtain ⟨i, n, h1, h2, h3⟩ := extractBlueskyUrl_some_spec msg u hu
    obtain ⟨hshape, hlen⟩ := bskyMatchLen_shape _ n h1
    refine ⟨i, ?_, ?_, ?_⟩
    · unfold occursAt
      have hul : u.length = n := by
        rw [h2, List.length_take]
        exact Nat.min_eq_left hlen
      rw [hul]
      exact h2.symm
    · rw [h2]
      exact hshape
    · intro j hj v hocc hshape2
      exact (bskyMatchLen_isSome_of_occurs msg v j hocc hshape2) (h3 j hj)
  · intro hnone j v hocc hshape
    rw [extractBlueskyUrl_none_iff] at hnone
    exact (bskyMatchLen_isSome_of_occurs msg v j hocc hshape) (hnone j)

/-- Witness for C4 at a concrete line from the repository's tests. -/
theorem extractBlueskyUrl_first_match_witness :
    ∃ i, occursAt ("https://bsky.app/profile/al.bsky.social/post/abc123".toList)
        ("before https://bsky.app/profile/al.bsky.social/post/abc123 after".toList) i ∧
      ClaimTrackedShape isAlnumAscii
        ("https://bsky.app/profile/al.bsky.social/post/abc123".toList) ∧
      ∀ j, j < i → ∀ v, occursAt v
          ("before https://bsky.app/profile/al.bsky.social/post/abc123 after".toList) j →
        ¬ClaimTrackedShape isAlnumAscii v :=
  (extractBlueskyUrl_first_match
    ("before https://bsky.app/profile/al.bsky.social/post/abc123 after".toList)).1
    ("https://bsky.app/profile/al.bsky.social/post/abc123".toList) (by decide)

/-! ### C6 : extension-based image recognition -/

theorem firstExtLen_isSome_iff (b : Str) :
    (firstExtLen b).isSome = true ↔ ExtAlternativeAt b := by
  unfold firstExtLen ExtAlternativeAt
  split_ifs with h1 h2 h3 h4 h5 h6 <;> simp_all

theorem takeWhile_append_all {p : Char → Bool} {good : Str} (rest : Str)
    (hg : ∀ c ∈ good, p c = true) :
    (good ++ rest).takeWhile p = good ++ rest.takeWhile p := by
  induction good with
  | nil => rfl
  | cons g t ih =>
    simp only [List.cons_append, List.takeWhile_cons, hg g (by simp)]
    simp only [if_true]
    rw [ih (fun c hc => hg c (by simp [hc]))]

theorem lastDotExtAux_some (tail : Str) (k : Nat) :
    ∀ d e, lastDotExtAux tail k = some (d, e) →
      1 ≤ d ∧ d ≤ k ∧ tail.get? d = some '.' ∧
        firstExtLen (tail.drop (d + 1)) = some e := by
  induction k with
  | zero => intro d e h; simp [lastDotExtAux] at h
  | succ k ih =>
    intro d e h
    simp only [lastDotExtAux] at h
    by_cases hdot : (tail.get? (k + 1) == some '.') = true
    · rw [if_pos hdot] at h
      cases hfe : firstExtLen (tail.drop (k + 2)) with
      | some e2 =>
        rw [hfe] at h
        simp only [Option.some.injEq, Prod.mk.injEq] at h
        obtain ⟨rfl, rfl⟩ := h
        refine ⟨by omega, by omega, by simpa using hdot, by simpa using hfe⟩
      | none =>
        rw [hfe] at h
        obtain ⟨h1, h2, h3, h4⟩ := ih d e h
        exact ⟨h1, by omega, h3, h4⟩
    · rw [if_neg hdot] at h
      obtain ⟨h1, h2, h3, h4⟩ := ih d e h
      exact ⟨h1, by omega, h3, h4⟩

theorem lastDotExtAux_isSome_of (tail : Str) (k d : Nat) (h1 : 1 ≤ d) (h2 : d ≤ k)
    (hdot : tail.get? d = some '.')
    (hext : (firstExtLen (tail.drop (d + 1))).isSome = true) :
    (lastDotExtAux tail k).isSome = true := by
  induction k with
  | zero => omega
  | succ k ih =>
    simp only [lastDotExtAux]
    by_cases hd : (tail.get? (k + 1) == some '.') = true
    · rw [if_pos hd]
      cases hfe : firstExtLen (tail.drop (k + 2)) with
      | some e2 => simp
      | none =>
        by_cases hdk : d = k + 1
        · rw [hdk] at hext
          rw [show k + 1 + 1 = k + 2 from rfl] at hext
          rw [hfe] at hext
          simp at hext
        · exact ih (by omega)
    · rw [if_neg hd]
      by_cases hdk : d = k + 1
      · rw [hdk] at hdot
        rw [hdot] at hd
        simp at hd
      · exact ih (by omega)

theorem extTailLen_shape (tail : Str) (m : Nat) (h : extTailLen tail = some m) :
    ∃ mid b, mid ≠ [] ∧ mid.all notSpace = true ∧
      tail = mid ++ ('.' :: b) ∧ ExtAlternativeAt b := by
  simp only [extTailLen] at h
  cases hld : lastDotExtAux tail ((tail.takeWhile notSpace).length) with
  | none => rw [hld] at h; simp at h
  | some de =>
    obtain ⟨d, e⟩ := de
    obtain ⟨h1, h2, h3, h4⟩ := lastDotExtAux_some tail _ d e hld
    have hdlt : d < tail.length := by
      rcases List.get?_eq_some.mp h3 with ⟨hlt, _⟩
      exact hlt
    refine ⟨tail.take d, tail.drop (d + 1), ?_, ?_, ?_, ?_⟩
    · have : (tail.take d).length = d := by
        rw [List.length_take]
        omega
      intro hcon
      rw [hcon] at this
      simp at this
      omega
    · rw [List.all_eq_true]
      intro c hc
      have hrun : tail.take d = (tail.takeWhile notSpace).take d := by
        conv_rhs => rw [← @takeWhile_eq_take notSpace tail]
        rw [List.take_take, Nat.min_eq_left h2]
      rw [hrun] at hc
      exact List.mem_takeWhile_imp (List.take_subset _ _ hc)
    · conv_lhs => rw [← List.take_append_drop d tail]
      congr 1
      rcases List.get?_eq_some.mp h3 with ⟨hlt, hval⟩
      rw [List.drop_eq_get_cons hlt, hval]
    · rw [← firstExtLen_isSome_iff]
      rw [h4]
      rfl

theorem extTailLen_isSome_of_shape (mid b : Str) (hm : mid ≠ [])
    (hma : mid.all notSpace = true) (hext : ExtAlternativeAt b) :
    (extTailLen (mid ++ ('.' :: b))).isSome = true := by
  have hall : ∀ c ∈ mid, notSpace c = true := by
    rw [List.all_eq_true] at hma
    exact hma
  have hrun : ((mid ++ ('.' :: b)).takeWhile notSpace).length ≥ mid.length + 1 := by
    rw [takeWhile_append_all _ hall]
    simp only [List.length_append]
    have : ('.' :: b).takeWhile notSpace = '.' :: b.takeWhile notSpace := by
      rw [List.takeWhile_cons]
      simp [notSpace, isSpaceJS]
    rw [this]
    simp
  have hget : (mid ++ ('.' :: b)).get? mid.length = some '.' := by
    rw [List.get?_append_right (by omega)]
    simp
  have hdrop : (mid ++ ('.' :: b)).drop (mid.length + 1) = b := by
    have h1 : (mid ++ ('.' :: b)).drop mid.length = '.' :: b := List.drop_left _ _
    have h2 : (mid ++ ('.' :: b)).drop (mid.length + 1) =
        ((mid ++ ('.' :: b)).drop mid.length).drop 1 := by
      rw [List.drop_drop, Nat.add_comm]
    rw [h2, h1]
    rfl
  have hmlen : 1 ≤ mid.length := by
    cases mid with
    | nil => exact absurd rfl hm
    | cons a t => simp
  have hsome := lastDotExtAux_isSome_of (mid ++ ('.' :: b))
    (((mid ++ ('.' :: b)).takeWhile notSpace).length) mid.length hmlen (by omega)
    hget (by rw [hdrop]; exact (firstExtLen_isSome_iff b).mpr hext)
  obtain ⟨de, hde⟩ := Option.isSome_iff_exists.mp hsome
  obtain ⟨d, e⟩ := de
  simp only [extTailLen, hde]
  by_cases hq : ((mid ++ ('.' :: b)).get? (d + 1 + e) == some '?') = true
  · rw [if_pos hq]
    rfl
  · rw [if_neg hq]
    rfl

theorem extMatchLen_eq_noS (s : Str)
    (hhttp : startsCI ("http".toList) s = true)
    (hS : (match s.get? 4 with
      | some c => ciEq 's' c
      | none => false) = false) :
    extMatchLen s =
      (if startsCI ("://".toList) (s.drop 4) = true
       then (extTailLen (s.drop 7)).map (fun n => 7 + n) else none) := by
  simp only [extMatchLen]
  rw [if_pos hhttp, hS]
  simp

theorem extMatchLen_eq_withS (s : Str) (m : Nat)
    (hhttp : startsCI ("http".toList) s = true)
    (hS : (match s.get? 4 with
      | some c => ciEq 's' c
      | none => false) = true)
    (hlit : startsCI ("://".toList) (s.drop 5) = true)
    (hbt : extTailLen (s.drop 8) = some m) :
    extMatchLen s = some (8 + m) := by
  simp only [extMatchLen]
  rw [if_pos hhttp, hS]
  rw [if_pos (by rw [hlit]; rfl)]
  rw [hbt]
  rfl

theorem extMatchLen_shape_noS (s : Str) (n : Nat)
    (hhttp : startsCI ("http".toList) s = true)
    (h : (if startsCI ("://".toList) (s.drop 4) = true
      then (extTailLen (s.drop 7)).map (fun m => 7 + m) else none) = some n) :
    ∃ sch mid b : Str,
      (CaseVariantOf ("http://".toList) sch ∨ CaseVariantOf ("https://".toList) sch) ∧
      mid ≠ [] ∧ mid.all notSpace = true ∧ s = sch ++ (mid ++ ('.' :: b)) ∧
      ExtAlternativeAt b := by
  by_cases hlit : startsCI ("://".toList) (s.drop 4) = true
  swap
  · rw [if_neg hlit] at h
    exact absurd h (by simp)
  rw [if_pos hlit] at h
  cases hbt : extTailLen (s.drop 7) with
  | none => rw [hbt] at h; exact absurd h (by simp)
  | some m =>
    obtain ⟨mid, b, hmne, hma, htail, hext⟩ := extTailLen_shape (s.drop 7) m hbt
    obtain ⟨hcv4, hle4⟩ := startsCI_caseVariant hhttp
    obtain ⟨hcv3, hle3⟩ := startsCI_caseVariant hlit
    have hplen : (("http".toList) : Str).length = 4 := rfl
    have hllen : (("://".toList) : Str).length = 3 := rfl
    rw [hplen] at hcv4
    rw [hllen] at hcv3
    refine ⟨s.take 4 ++ (s.drop 4).take 3, mid, b, Or.inl ?_, hmne, hma, ?_, hext⟩
    · have hsplit : (("http://".toList) : Str) = ("http".toList) ++ ("://".toList) := rfl
      rw [hsplit]
      exact List.rel_append hcv4 hcv3
    · have ht7 : s.take 7 = s.take 4 ++ (s.drop 4).take 3 := by
        rw [show (7 : Nat) = 4 + 3 from rfl, List.take_add]
      conv_lhs => rw [← List.take_append_drop 7 s]
      rw [ht7, htail]

theorem extMatchLen_shape (s : Str) (n : Nat) (h : extMatchLen s = some n) :
    ∃ sch mid b : Str,
      (CaseVariantOf ("http://".toList) sch ∨ CaseVariantOf ("https://".toList) sch) ∧
      mid ≠ [] ∧ mid.all notSpace = true ∧ s = sch ++ (mid ++ ('.' :: b)) ∧
      ExtAlternativeAt b := by
  simp only [extMatchLen] at h
  by_cases hhttp : startsCI ("http".toList) s = true
  swap
  · rw [if_neg hhttp] at h
    exact absurd h (by simp)
  rw [if_pos hhttp] at h
  by_cases hws : ((match s.get? 4 with
      | some c => ciEq 's' c
      | none => false) &&
      startsCI ("://".toList) (s.drop 5)) = true
  · rw [if_pos hws] at h
    cases hbt : extTailLen (s.drop 8) with
    | none =>
      rw [hbt] at h
      simp only [Option.map_none'] at h
      exact extMatchLen_shape_noS s n hhttp h
    | some m =>
      obtain ⟨hS, hlit⟩ := Bool.and_eq_true_iff.mp hws
      obtain ⟨c4, hget4, hci4⟩ : ∃ c4, s.get? 4 = some c4 ∧ ciEq 's' c4 = true := by
        cases hg : s.get? 4 with
        | none => rw [hg] at hS; exact absurd hS (by simp)
        | some c => rw [hg] at hS; exact ⟨c, rfl, hS⟩
      obtain ⟨mid, b, hmne, hma, htail, hext⟩ := extTailLen_shape (s.drop 8) m hbt
      obtain ⟨hcv4, hle4⟩ := startsCI_caseVariant hhttp
      obtain ⟨hcv3, hle3⟩ := startsCI_caseVariant hlit
      have hplen : (("http".toList) : Str).length = 4 := rfl
      have hllen : (("://".toList) : Str).length = 3 := rfl
      rw [hplen] at hcv4
      rw [hllen] at hcv3
      obtain ⟨h4lt, hval⟩ := List.get?_eq_some.mp hget4
      have hdrop4 : s.drop 4 = c4 :: s.drop 5 := by
        rw [List.drop_eq_get_cons h4lt, hval]
      have hext1 : (s.drop 4).take 1 = [c4] := by
        rw [hdrop4]
        rfl
      refine ⟨s.take 4 ++ ((s.drop 4).take 1 ++ (s.drop 5).take 3), mid, b, Or.inr ?_,
        hmne, hma, ?_, hext⟩
      · have hsplit : (("https://".toList) : Str) =
            ("http".toList) ++ (['s'] ++ ("://".toList)) := rfl
        rw [hsplit]
        refine List.rel_append hcv4 ?_
        rw [hext1]
        exact List.rel_append
          (List.Forall₂.cons ((ciEq_iff _ _).mp hci4) List.Forall₂.nil) hcv3
      · have ht8 : s.take 8 = s.take 4 ++ ((s.drop 4).take 1 ++ (s.drop 5).take 3) := by
          rw [show (8 : Nat) = 4 + (1 + 3) from rfl, List.take_add, List.take_add]
          have hd5 : (s.drop 4).drop 1 = s.drop 5 := by
            rw [List.drop_drop]
          rw [hd5]
        conv_lhs => rw [← List.take_append_drop 8 s]
        rw [ht8, htail]
  · rw [if_neg hws] at h
    exact extMatchLen_shape_noS s n hhttp h

theorem extMatchLen_isSome_of_shape (sch mid b : Str)
    (hsch : CaseVariantOf ("http://".toList) sch ∨ CaseVariantOf ("https://".toList) sch)
    (hmne : mid ≠ []) (hma : mid.all notSpace = true) (hext : ExtAlternativeAt b) :
    ∃ n, extMatchLen (sch ++ (mid ++ ('.' :: b))) = some (n + 1) := by
  obtain ⟨m, hbt⟩ := Option.isSome_iff_exists.mp
    (extTailLen_isSome_of_shape mid b hmne hma hext)
  rcases hsch with hpre | hpre
  · -- http:// variant, 7-character scheme
    have hsplit : (("http://".toList) : Str) = ("http".toList) ++ ("://".toList) := rfl
    rw [hsplit] at hpre
    obtain ⟨t4, t3, rfl, h4, h3⟩ := caseVariant_append_split hpre
    have ht4 : t4.length = 4 := (List.Forall₂.length_eq h4).symm
    have ht3 : t3.length = 3 := (List.Forall₂.length_eq h3).symm
    obtain ⟨c0, t3tl, rfl⟩ : ∃ c0 t3tl, t3 = c0 :: t3tl := by
      cases t3 with
      | nil => simp at ht3
      | cons x y => exact ⟨x, y, rfl⟩
    have hc0 : c0 = ':' := by
      cases h3 with
      | cons hc _ => exact caseVariantChar_fixed (by decide) hc
    have hR : ((t4 ++ (c0 :: t3tl)) ++ (mid ++ ('.' :: b))) =
        t4 ++ ((c0 :: t3tl) ++ (mid ++ ('.' :: b))) := by
      simp [List.append_assoc]
    rw [hR]
    have hstart : startsCI ("http".toList)
        (t4 ++ ((c0 :: t3tl) ++ (mid ++ ('.' :: b)))) = true :=
      startsCI_of_caseVariant h4 _
    have hget4 : (t4 ++ ((c0 :: t3tl) ++ (mid ++ ('.' :: b)))).get? 4 = some c0 := by
      rw [List.get?_append_right (by omega)]
      simp [ht4]
    have hS : (match (t4 ++ ((c0 :: t3tl) ++ (mid ++ ('.' :: b)))).get? 4 with
        | some c => ciEq 's' c
        | none => false) = false := by
      simp only [hget4]
      rw [hc0]
      decide
    have hdrop4 : (t4 ++ ((c0 :: t3tl) ++ (mid ++ ('.' :: b)))).drop 4 =
        (c0 :: t3tl) ++ (mid ++ ('.' :: b)) := by
      conv_lhs => rw [show (4 : Nat) = t4.length from ht4.symm]
      exact List.drop_left _ _
    have hdrop7 : (t4 ++ ((c0 :: t3tl) ++ (mid ++ ('.' :: b)))).drop 7 =
        mid ++ ('.' :: b) := by
      have hassoc : t4 ++ ((c0 :: t3tl) ++ (mid ++ ('.' :: b))) =
          (t4 ++ (c0 :: t3tl)) ++ (mid ++ ('.' :: b)) := by
        simp [List.append_assoc]
      rw [hassoc]
      have hlen : (t4 ++ (c0 :: t3tl)).length = 7 := by
        simp only [List.length_append, ht4]
        simp only [List.length_cons] at ht3 ⊢
        omega
      conv_lhs => rw [show (7 : Nat) = (t4 ++ (c0 :: t3tl)).length from hlen.symm]
      exact List.drop_left _ _
    refine ⟨6 + m, ?_⟩
    rw [extMatchLen_eq_noS _ hstart hS]
    rw [if_pos (by rw [hdrop4]; exact startsCI_of_caseVariant h3 _)]
    rw [hdrop7, hbt]
    simp only [Option.map_some']
    rw [(by omega : (7 : Nat) + m = 6 + m + 1)]
  · -- https:// variant, 8-character scheme
    have hsplit : (("https://".toList) : Str) =
        ("http".toList) ++ (['s'] ++ ("://".toList)) := rfl
    rw [hsplit] at hpre
    obtain ⟨t4, trest, rfl, h4, hrest⟩ := caseVariant_append_split hpre
    obtain ⟨tS, t3, rfl, hSv, h3⟩ := caseVariant_append_split hrest
    have ht4 : t4.length = 4 := (List.Forall₂.length_eq h4).symm
    have ht3 : t3.length = 3 := (List.Forall₂.length_eq h3).symm
    obtain ⟨cS, rfl⟩ : ∃ cS, tS = [cS] := by
      cases hSv with
      | cons hc htl =>
        cases htl with
        | nil => exact ⟨_, rfl⟩
    have hcS : caseVariantChar 's' cS := by
      cases hSv with
      | cons hc _ => exact hc
    have hR : ((t4 ++ ([cS] ++ t3)) ++ (mid ++ ('.' :: b))) =
        t4 ++ ([cS] ++ (t3 ++ (mid ++ ('.' :: b)))) := by
      simp [List.append_assoc]
    rw [hR]
    have hstart : startsCI ("http".toList)
        (t4 ++ ([cS] ++ (t3 ++ (mid ++ ('.' :: b))))) = true :=
      startsCI_of_caseVariant h4 _
    have hget4 : (t4 ++ ([cS] ++ (t3 ++ (mid ++ ('.' :: b))))).get? 4 = some cS := by
      rw [List.get?_append_right (by omega)]
      simp [ht4]
    have hS : (match (t4 ++ ([cS] ++ (t3 ++ (mid ++ ('.' :: b))))).get? 4 with
        | some c => ciEq 's' c
        | none => false) = true := by
      simp only [hget4]
      exact (ciEq_iff _ _).mpr hcS
    have hdrop5 : (t4 ++ ([cS] ++ (t3 ++ (mid ++ ('.' :: b))))).drop 5 =
        t3 ++ (mid ++ ('.' :: b)) := by
      have hassoc : t4 ++ ([cS] ++ (t3 ++ (mid ++ ('.' :: b)))) =
          (t4 ++ [cS]) ++ (t3 ++ (mid ++ ('.' :: b))) := by
        simp [List.append_assoc]
      rw [hassoc]
      have hlen : (t4 ++ [cS]).length = 5 := by
        simp [ht4]
      conv_lhs => rw [show (5 : Nat) = (t4 ++ [cS]).length from hlen.symm]
      exact List.drop_left _ _
    have hdrop8 : (t4 ++ ([cS] ++ (t3 ++ (mid ++ ('.' :: b))))).drop 8 =
        mid ++ ('.' :: b) := by
      have hassoc : t4 ++ ([cS] ++ (t3 ++ (mid ++ ('.' :: b)))) =
          ((t4 ++ [cS]) ++ t3) ++ (mid ++ ('.' :: b)) := by
        simp [List.append_assoc]
      rw [hassoc]
      have hlen : ((t4 ++ [cS]) ++ t3).length = 8 := by
        simp [ht4, ht3]
      conv_lhs => rw [show (8 : Nat) = ((t4 ++ [cS]) ++ t3).length from hlen.symm]
      exact List.drop_left _ _
    refine ⟨7 + m, ?_⟩
    rw [extMatchLen_eq_withS _ m hstart hS
      (by rw [hdrop5]; exact startsCI_of_caseVariant h3 _)
      (by rw [hdrop8]; exact hbt)]
    rw [(by omega : (8 : Nat) + m = 7 + m + 1)]

theorem scanFuel_ne_nil_elim (f : Str → Option Nat) :
    ∀ fuel s, scanFuel f fuel s ≠ [] → ∃ i n, f (s.drop i) = some (n + 1) := by
  intro fuel
  induction fuel with
  | zero =>
    intro s h
    cases s with
    | nil => exact (h rfl).elim
    | cons c rest => exact (h rfl).elim
  | succ fuel ih =>
    intro s h
    cases s with
    | nil => exact (h rfl).elim
    | cons c rest =>
      cases hm : f (c :: rest) with
      | some m =>
        cases m with
        | zero =>
          simp only [scanFuel, hm] at h
          obtain ⟨i, n, hf⟩ := ih rest h
          exact ⟨i + 1, n, hf⟩
        | succ m => exact ⟨0, m, by rw [List.drop_zero]; exact hm⟩
      | none =>
        simp only [scanFuel, hm] at h
        obtain ⟨i, n, hf⟩ := ih rest h
        exact ⟨i + 1, n, hf⟩

theorem scanFuel_ne_nil_of (f : Str → Option Nat) (hnil : f [] = none) :
    ∀ fuel s i n, s.length ≤ fuel → f (s.drop i) = some (n + 1) →
      scanFuel f fuel s ≠ [] := by
  intro fuel
  induction fuel with
  | zero =>
    intro s i n hle hf
    have hs : s = [] := List.length_eq_zero.mp (Nat.le_zero.mp hle)
    rw [hs] at hf
    simp only [List.drop_nil] at hf
    rw [hnil] at hf
    exact absurd hf (by simp)
  | succ fuel ih =>
    intro s i n hle hf
    cases s with
    | nil =>
      simp only [List.drop_nil] at hf
      rw [hnil] at hf
      exact absurd hf (by simp)
    | cons c rest =>
      cases hm : f (c :: rest) with
      | some m =>
        cases m with
        | zero =>
          simp only [scanFuel, hm]
          cases i with
          | zero =>
            rw [List.drop_zero, hm] at hf
            exact absurd hf (by simp)
          | succ i =>
            have hdrop : (c :: rest).drop (i + 1) = rest.drop i := rfl
            rw [hdrop] at hf
            exact ih rest i n (by simp only [List.length_cons] at hle; omega) hf
        | succ m => simp [scanFuel, hm]
      | none =>
        simp only [scanFuel, hm]
        cases i with
        | zero =>
          rw [List.drop_zero, hm] at hf
          exact absurd hf (by simp)
        | succ i =>
          have hdrop : (c :: rest).drop (i + 1) = rest.drop i := rfl
          rw [hdrop] at hf
          exact ih rest i n (by simp only [List.length_cons] at hle; omega) hf

/-- C6 counterexample: the URL `https://.jpg` contains, case-insensitively, a
dot followed by the allowlisted extension `jpg`, yet the source's pattern
requires at least one non-whitespace character between the scheme and the dot
(`\S+\.`), so extension-based recognition rejects it. -/
theorem isImageByExtension_cex :
    isImageByExtension ("https://.jpg".toList) = false ∧
    ContainsDotExt ("https://.jpg".toList) := by
  refine ⟨by decide, ?_⟩
  exact ⟨("https://".toList), ("jpg".toList), by decide, Or.inl (by decide)⟩

/-- C6 (amended): a URL is recognized as an image by extension iff it
contains, case-insensitively, an http or https scheme occurrence followed by
at least one non-whitespace character and then a dot and one of jpg, jpeg,
png, gif, webp, bmp (the optional query string imposes no constraint) — a
bare dot-extension elsewhere is not enough; the recognizer is a total
Bool-valued function, and for every probe, parseCommand on the spec's example
line yields the Twit command with text `photo` and the single image URL kept
with its query string. -/
theorem isImageByExtension_iff :
    (∀ s, (isImageByExtension s = true ↔ AmendedExtShape s)) ∧
    (∀ f, parseCommand f ("twit photo https://example.com/img.jpg?size=large".toList) =
      some (Command.twit ⟨("photo".toList),
        some [("https://example.com/img.jpg?size=large".toList)]⟩)) := by
  constructor
  · intro s
    constructor
    · intro h
      have hne : matchAllExt s ≠ [] := by
        intro hc
        simp only [isImageByExtension, hc] at h
        simp at h
      obtain ⟨i, n, hin⟩ := scanFuel_ne_nil_elim extMatchLen s.length s hne
      obtain ⟨sch, mid, b, hsch, hmne, hma, heq, hext⟩ :=
        extMatchLen_shape (s.drop i) (n + 1) hin
      exact ⟨s.take i, sch, mid, b, hsch, hmne, hma, by
        conv_lhs => rw [← List.take_append_drop i s]
        rw [heq], hext⟩
    · intro hshape
      obtain ⟨a, sch, mid, b, hsch, hmne, hma, heq, hext⟩ := hshape
      obtain ⟨n, hn⟩ := extMatchLen_isSome_of_shape sch mid b hsch hmne hma hext
      have hdrop : s.drop a.length = sch ++ (mid ++ ('.' :: b)) := by
        rw [heq]
        exact List.drop_left _ _
      have hne : scanFuel extMatchLen s.length s ≠ [] :=
        scanFuel_ne_nil_of extMatchLen rfl s.length s a.length n le_rfl
          (by rw [hdrop]; exact hn)
      simp only [isImageByExtension, matchAllExt, scanAux]
      cases hc : scanFuel extMatchLen s.length s with
      | nil => exact absurd hc hne
      | cons x xs => rfl
  · intro f
    rfl

/-- Witness for C6 at a concrete URL with scheme, host and query string. -/
theorem isImageByExtension_iff_witness :
    isImageByExtension ("https://example.com/img.jpg?size=large".toList) = true :=
  (isImageByExtension_iff.1 ("https://example.com/img.jpg?size=large".toList)).mpr
    ⟨[], ("https://".toList), ("example.com/img".toList), ("jpg?size=large".toList),
      Or.inr (by decide), by decide, by decide, by decide, Or.inl (by decide)⟩

/-! ### C8 : the quote command parser -/

theorem dropCI_spec (pat : Str) : ∀ msg r, dropCI pat msg = some r →
    ∃ kw, CaseVariantOf pat kw ∧ msg = kw ++ r := by
  induction pat with
  | nil =>
    intro msg r h
    injection h with h2
    exact ⟨[], List.Forall₂.nil, by rw [h2]; rfl⟩
  | cons p ps ih =>
    intro msg r h
    cases msg with
    | nil => simp [dropCI] at h
    | cons c cs =>
      simp only [dropCI] at h
      by_cases hc : ciEq p c = true
      · rw [if_pos hc] at h
        obtain ⟨kw, hkw, heq⟩ := ih cs r h
        exact ⟨c :: kw, List.Forall₂.cons ((ciEq_iff _ _).mp hc) hkw, by rw [heq]; rfl⟩
      · rw [if_neg hc] at h
        exact absurd h (by simp)

theorem drop_takeWhile_head (p : Char → Bool) : ∀ (l : Str) (c : Char),
    (l.drop ((l.takeWhile p).length)).head? = some c → p c = false := by
  intro l
  induction l with
  | nil => intro c hc; simp at hc
  | cons x xs ih =>
    intro c hc
    by_cases hx : p x = true
    · simp only [List.takeWhile_cons, hx, if_true, List.length_cons,
        List.drop_succ_cons] at hc
      exact ih c hc
    · have hx2 : p x = false := by
        revert hx
        cases p x <;> simp
      rw [List.takeWhile_cons, hx2, if_neg (by simp : ¬(false = true))] at hc
      simp only [List.length_nil, List.drop_zero, List.head?_cons,
        Option.some.injEq] at hc
      rw [← hc]
      exact hx2

theorem quoteCapture_spec (r tok : Str) (opt : Option Str)
    (h : quoteCapture r = some (tok, opt)) :
    ∃ ws rest : Str, ws ≠ [] ∧ ws.all isSpaceJS = true ∧
      tok ≠ [] ∧ tok.all notSpace = true ∧
      (∀ c, rest.head? = some c → isSpaceJS c = true) ∧
      r = ws ++ (tok ++ rest) ∧
      ((rest = [] ∧ opt = none) ∨
       (∃ cap, swCapture rest = some cap ∧ opt = some cap)) := by
  simp only [quoteCapture] at h
  by_cases hws : ((r.takeWhile isSpaceJS).length == 0) = true
  · rw [if_pos hws] at h
    exact absurd h (by simp)
  rw [if_neg hws] at h
  by_cases htok : ((r.drop (r.takeWhile isSpaceJS).length).takeWhile notSpace).isEmpty = true
  · rw [if_pos htok] at h
    exact absurd h (by simp)
  rw [if_neg htok] at h
  have hwsne : r.takeWhile isSpaceJS ≠ [] := by
    intro hcon
    rw [hcon] at hws
    exact hws rfl
  have htokne : (r.drop (r.takeWhile isSpaceJS).length).takeWhile notSpace ≠ [] := by
    intro hcon
    rw [hcon] at htok
    exact htok rfl
  have hdec : r = r.takeWhile isSpaceJS ++
      ((r.drop (r.takeWhile isSpaceJS).length).takeWhile notSpace ++
        ((r.drop (r.takeWhile isSpaceJS).length).drop
          ((r.drop (r.takeWhile isSpaceJS).length).takeWhile notSpace).length)) := by
    conv_lhs => rw [← List.take_append_drop ((r.takeWhile isSpaceJS).length) r]
    rw [@takeWhile_eq_take isSpaceJS r]
    congr 1
    conv_lhs =>
      rw [← List.take_append_drop
        (((r.drop (r.takeWhile isSpaceJS).length).takeWhile notSpace).length)
        (r.drop (r.takeWhile isSpaceJS).length)]
    rw [@takeWhile_eq_take notSpace (r.drop (r.takeWhile isSpaceJS).length)]
  have hhead : ∀ c, ((r.drop (r.takeWhile isSpaceJS).length).drop
      ((r.drop (r.takeWhile isSpaceJS).length).takeWhile notSpace).length).head? = some c →
      isSpaceJS c = true := by
    intro c hc
    have := drop_takeWhile_head notSpace (r.drop (r.takeWhile isSpaceJS).length) c hc
    revert this
    simp [notSpace]
  by_cases hr3 : ((r.drop (r.takeWhile isSpaceJS).length).drop
      ((r.drop (r.takeWhile isSpaceJS).length).takeWhile notSpace).length).isEmpty = true
  · rw [if_pos hr3] at h
    simp only [Option.some.injEq, Prod.mk.injEq] at h
    obtain ⟨htokeq, hopteq⟩ := h
    have hr3nil : (r.drop (r.takeWhile isSpaceJS).length).drop
        ((r.drop (r.takeWhile isSpaceJS).length).takeWhile notSpace).length = [] := by
      cases hcase : (r.drop (r.takeWhile isSpaceJS).length).drop
          ((r.drop (r.takeWhile isSpaceJS).length).takeWhile notSpace).length with
      | nil => rfl
      | cons x xs => rw [hcase] at hr3; simp at hr3
    refine ⟨r.takeWhile isSpaceJS,
      (r.drop (r.takeWhile isSpaceJS).length).drop
        ((r.drop (r.takeWhile isSpaceJS).length).takeWhile notSpace).length,
      hwsne, takeWhile_all _, ?_, ?_, hhead, ?_, Or.inl ⟨hr3nil, hopteq.symm⟩⟩
    · rw [← htokeq]
      exact htokne
    · rw [← htokeq]
      exact takeWhile_all _
    · rw [← htokeq]
      exact hdec
  · rw [if_neg hr3] at h
    cases hsw : swCapture ((r.drop (r.takeWhile isSpaceJS).length).drop
        ((r.drop (r.takeWhile isSpaceJS).length).takeWhile notSpace).length) with
    | none =>
      rw [hsw] at h
      exact absurd h (by simp)
    | some cap =>
      rw [hsw] at h
      simp only [Option.some.injEq, Prod.mk.injEq] at h
      obtain ⟨htokeq, hopteq⟩ := h
      refine ⟨r.takeWhile isSpaceJS,
        (r.drop (r.takeWhile isSpaceJS).length).drop
          ((r.drop (r.takeWhile isSpaceJS).length).takeWhile notSpace).length,
        hwsne, takeWhile_all _, ?_, ?_, hhead, ?_,
        Or.inr ⟨cap, hsw, hopteq.symm⟩⟩
      · rw [← htokeq]
        exact htokne
      · rw [← htokeq]
        exact takeWhile_all _
      · rw [← htokeq]
        exact hdec

/-- C8: a successful `parseQuoteCommand` decomposes the line into a case
variant of the keyword, a whitespace run, the first whitespace-delimited
token (the target nick), and a remainder that begins with whitespace when
nonempty; an empty remainder yields no additional text and no image URLs,
otherwise the remainder's `\s+(.+)$` capture is run through image
extraction, the additional text being the trimmed residual or `undefined`
when that residual is empty; and on the spec's example line `parseCommand`
yields `Quote` of `al` with additional text `extra text` and no image URLs,
for every probe. -/
theorem parseQuoteCommand_spec :
    (∀ f msg q, parseQuoteCommand f msg = some q →
      ∃ kw ws rest : Str,
        CaseVariantOf ("quote".toList) kw ∧
        ws ≠ [] ∧ ws.all isSpaceJS = true ∧
        q.targetNick ≠ [] ∧ q.targetNick.all notSpace = true ∧
        (∀ c, rest.head? = some c → isSpaceJS c = true) ∧
        msg = kw ++ (ws ++ (q.targetNick ++ rest)) ∧
        ((rest = [] ∧ q.additionalText = none ∧ q.imageUrls = none) ∨
         (∃ cap, swCapture rest = some cap ∧
           q.additionalText =
             (if (extractImageUrls f (trimJS cap)).cleanText.isEmpty then none
              else some (extractImageUrls f (trimJS cap)).cleanText) ∧
           q.imageUrls = (extractImageUrls f (trimJS cap)).imageUrls))) ∧
    (∀ f, parseCommand f ("quote al   extra text  ".toList) =
      some (Command.quote ⟨("al".toList), some ("extra text".toList), none⟩)) := by
  constructor
  · intro f msg q h
    simp only [parseQuoteCommand] at h
    cases hd : dropCI ("quote".toList) msg with
    | none =>
      rw [hd] at h
      exact absurd h (by simp)
    | some r =>
      simp only [hd] at h
      obtain ⟨kw, hkw, hmsg⟩ := dropCI_spec ("quote".toList) msg r hd
      cases hq : quoteCapture r with
      | none =>
        rw [hq] at h
        exact absurd h (by simp)
      | some pr =>
        obtain ⟨tok, opt⟩ := pr
        obtain ⟨ws, rest, hws, hwsall, htokne, htokall, hhead, hr, hopt⟩ :=
          quoteCapture_spec r tok opt hq
        simp only [hq] at h
        cases opt with
        | none =>
          simp only [Option.some.injEq] at h
          rcases hopt with ⟨hrest, _⟩ | ⟨cap, _, hcontra⟩
          swap
          · exact absurd hcontra.symm (by simp)
          refine ⟨kw, ws, rest, hkw, hws, hwsall, ?_, ?_, hhead, ?_, ?_⟩
          · rw [← h]
            exact htokne
          · rw [← h]
            exact htokall
          · rw [hmsg, hr, ← h]
          · exact Or.inl ⟨hrest, by rw [← h], by rw [← h]⟩
        | some additionalText =>
          simp only [Option.some.injEq] at h
          rcases hopt with ⟨_, hcontra⟩ | ⟨cap, hsw, hcap⟩
          · exact absurd hcontra (by simp)
          injection hcap with hcap2
          refine ⟨kw, ws, rest, hkw, hws, hwsall, ?_, ?_, hhead, ?_, ?_⟩
          · rw [← h]
            exact htokne
          · rw [← h]
            exact htokall
          · rw [hmsg, hr, ← h]
          · refine Or.inr ⟨cap, hsw, ?_, ?_⟩
            · rw [← h, hcap2]
            · rw [← h, hcap2]
  · intro f
    rfl

/-- Witness for C8 on the line `quote al hi` with the all-failure probe. -/
theorem parseQuoteCommand_spec_witness :
    ∃ kw ws rest : Str,
      CaseVariantOf ("quote".toList) kw ∧
      ws ≠ [] ∧ ws.all isSpaceJS = true ∧
      ("al".toList) ≠ [] ∧ ("al".toList).all notSpace = true ∧
      (∀ c, rest.head? = some c → isSpaceJS c = true) ∧
      ("quote al hi".toList) = kw ++ (ws ++ (("al".toList) ++ rest)) ∧
      ((rest = [] ∧ (some ("hi".toList) : Option Str) = none ∧
          (none : Option (List Str)) = none) ∨
       (∃ cap, swCapture rest = some cap ∧
         (some ("hi".toList) : Option Str) =
           (if (extractImageUrls probeNone (trimJS cap)).cleanText.isEmpty then none
            else some (extractImageUrls probeNone (trimJS cap)).cleanText) ∧
         (none : Option (List Str)) =
           (extractImageUrls probeNone (trimJS cap)).imageUrls)) :=
  parseQuoteCommand_spec.1 probeNone ("quote al hi".toList)
    ⟨("al".toList), some ("hi".toList), none⟩ (by decide)

/-! ### C3 : round-trip idempotence of residual-text extraction -/

/-- C3: round-trip idempotence fails.  On the line
`twit https://cdn/pz https://cdn/p`, with the probe reporting content type
`image/png` for `https://cdn/p` and failing for every other URL, the twit
rule accepts and produces the residual text `z https://cdn/p`: the source's
`text.replace(url, "")` removed the *first* occurrence of `https://cdn/p`,
which is a prefix of the different URL `https://cdn/pz`, leaving a partial
leftover; running the image extractor again on that residual yields
`https://cdn/p` once more instead of the empty set. -/
theorem twit_residual_reextract :
    parseTwitCommand
        (fun u => if u = ("https://cdn/p".toList)
          then ProbeOutcome.success (some ("image/png".toList))
          else ProbeOutcome.failure)
        ("twit https://cdn/pz https://cdn/p".toList) =
      some ⟨("z https://cdn/p".toList), some [("https://cdn/p".toList)]⟩ ∧
    (extractImageUrls
        (fun u => if u = ("https://cdn/p".toList)
          then ProbeOutcome.success (some ("image/png".toList))
          else ProbeOutcome.failure)
        ("z https://cdn/p".toList)).imageUrls = some [("https://cdn/p".toList)] := by
  exact ⟨by decide, by decide⟩

/-- Witness for C9: two updates from case variants of one nick leave a single
record, returned for a third case variant with lower-cased `who`. -/
theorem seen_store_spec_witness :
    getSeen (runUpdates
        [⟨("Al".toList), ("hello".toList), ("#chan".toList), 5⟩,
         ⟨("AL".toList), ("bye".toList), ("#chan2".toList), 9⟩]) ("aL".toList) =
      some ⟨("al".toList), ("bye".toList), ("#chan2".toList), 9⟩ :=
  ((seen_store_spec
      [⟨("Al".toList), ("hello".toList), ("#chan".toList), 5⟩,
       ⟨("AL".toList), ("bye".toList), ("#chan2".toList), 9⟩]
      ("Al".toList) ("aL".toList) (by decide)).1).trans (by decide)

end Bskyrc
